import Mathlib

/-!
Verification of SSEChat-FRP's conversation-tree store, active-path resolver,
stream relay and stream consumer, as a shallow embedding of the TypeScript
sources (`apps/web/src/lib/message-tree.ts`, `apps/web/src/routes/index.tsx`,
and the server routes in `apps/web/src/components/ModelSelector.tsx`).

JavaScript idioms are modelled explicitly:
* a JS `Map<string, A>` is an association list in insertion order
  (`Map.set` on an existing key updates the value in place, keeping the
  original position; on a new key it appends);
* JS truthiness of an optional string (`if (s)`) is `truthyStr`:
  `undefined`/`null` and the empty string are falsy;
* unbounded JS recursion/loops are given an explicit fuel parameter that
  models the call stack / loop budget; the fuel chosen by wrappers matches
  what terminates on well-formed inputs.
-/

set_option maxRecDepth 16384

namespace SSEChat

inductive Role where
  | user
  | assistant
  | system
deriving DecidableEq, Repr

/-- The `ChatMessage` record of `packages/zod` (web variant): `role`,
`content`, `id`, optional `parentId`, `children` ids, `createdAt`. -/
structure ChatMessage where
  role : Role
  content : String
  id : String
  parentId : Option String
  children : List String
  createdAt : Nat
deriving DecidableEq, Repr

/-- JS `Map<string, A>` as an insertion-ordered association list. -/
def JsMap (A : Type) : Type := List (String × A)

instance {A : Type} [DecidableEq A] : DecidableEq (JsMap A) := by
  unfold JsMap
  infer_instance

/-- `Map.get`: first (and only) entry with the key. -/
def mapGet {A : Type} (m : JsMap A) (k : String) : Option A :=
  (m.find? (fun e => e.1 == k)).map (·.2)

/-- `Map.set`: update in place if the key exists, else append. -/
def mapSet {A : Type} (m : JsMap A) (k : String) (v : A) : JsMap A :=
  match m with
  | [] => [(k, v)]
  | e :: rest => if e.1 == k then (k, v) :: rest else e :: mapSet rest k v

/-- `Array.from(map.values())`: values in insertion order. -/
def mapValues {A : Type} (m : JsMap A) : List A :=
  m.map (·.2)

/-- JS truthiness of a `string | null | undefined` value. -/
def truthyStr : Option String → Bool
  | none => false
  | some s => s != ""

/-- `buildMessageTree` (message-tree.ts): pass 1 creates the id → node map
with empty `children`; pass 2 pushes each message's id onto its parent's
`children` when `msg.parentId` is truthy and the parent is in the map. -/
def buildMessageTree (messages : List ChatMessage) : JsMap ChatMessage :=
  let tree : JsMap ChatMessage :=
    messages.foldl (fun t msg => mapSet t msg.id { msg with children := [] }) []
  messages.foldl
    (fun t msg =>
      if truthyStr msg.parentId then
        match mapGet t (msg.parentId.getD "") with
        | some parent =>
            mapSet t (msg.parentId.getD "")
              { parent with children := parent.children ++ [msg.id] }
        | none => t
      else t)
    tree

/-- The `while (true)` descent loop of `getActiveLeaf` (message-tree.ts):
at a node with children, look up `selectedBranches[current.id]`; if truthy,
`nextNode = tree.get(selectedChildId)`; if `nextNode` is still undefined,
`nextNode = tree.get(children[children.length - 1])`; if that is undefined
too, return `current.id`; otherwise continue from `nextNode`.  Fuel models
the unbounded loop; `none` means the fuel ran out. -/
def goActiveLeaf (tree : JsMap ChatMessage) (sel : JsMap String) :
    Nat → ChatMessage → Option String
  | 0, _ => none
  | fuel + 1, current =>
    if current.children.isEmpty then some current.id
    else
      let selectedChildId := mapGet sel current.id
      let nextNode : Option ChatMessage :=
        if truthyStr selectedChildId then mapGet tree (selectedChildId.getD "")
        else none
      let nextNode : Option ChatMessage :=
        match nextNode with
        | some n => some n
        | none =>
          match current.children.getLast? with
          | some lastId => mapGet tree lastId
          | none => none
      match nextNode with
      | none => some current.id
      | some n => goActiveLeaf tree sel fuel n

/-- `getActiveLeaf` (message-tree.ts): roots are the values whose `parentId`
is falsy; if there are none, return undefined; the starting id is
`selectedBranches['root'] ?? roots[0].id` (nullish coalescing); if that id is
not in the tree, return undefined; otherwise run the descent loop. -/
def getActiveLeaf (fuel : Nat) (tree : JsMap ChatMessage)
    (sel : JsMap String) : Option String :=
  let roots := (mapValues tree).filter (fun n => !truthyStr n.parentId)
  match roots with
  | [] => none
  | r0 :: _ =>
    let rootId :=
      match mapGet sel "root" with
      | some s => s
      | none => r0.id
    match mapGet tree rootId with
    | none => none
    | some current => goActiveLeaf tree sel fuel current

/-- `getSiblings` (message-tree.ts): unknown id → `[]`; falsy `parentId` →
all roots; parent id truthy but absent from the map → `[node]`; otherwise
the parent's `children` resolved to nodes, dropping dangling ids. -/
def getSiblings (tree : JsMap ChatMessage) (messageId : String) :
    List ChatMessage :=
  match mapGet tree messageId with
  | none => []
  | some node =>
    if !truthyStr node.parentId then
      (mapValues tree).filter (fun n => !truthyStr n.parentId)
    else
      match mapGet tree (node.parentId.getD "") with
      | none => [node]
      | some parent => parent.children.filterMap (fun i => mapGet tree i)

/-- The recursive `collectIds` closure of `deleteMessage` (routes/index.tsx):
add `id`, then recurse into every message whose `parentId === id`.  Fuel
models the JS call stack (the source recursion is unbounded and diverges on
cyclic parent pointers). -/
def collectIds (messages : List ChatMessage) : Nat → String → List String
  | 0, _ => []
  | fuel + 1, i =>
    i :: (messages.filter (fun m => m.parentId == some i)).flatMap
      (fun child => collectIds messages fuel child.id)

/-- `deleteMessage` (routes/index.tsx): collect the subtree ids from the
flat list, drop every message whose id was collected, and if the deleted
node's `parentId` is truthy, filter the deleted id out of that parent's
`children`. -/
def deleteMessage (messages : List ChatMessage)
    (messageToDelete : ChatMessage) : List ChatMessage :=
  let idsToDelete :=
    collectIds messages (messages.length + 1) messageToDelete.id
  let newMessages := messages.filter (fun m => !(idsToDelete.contains m.id))
  if truthyStr messageToDelete.parentId then
    newMessages.map (fun m =>
      if m.id == messageToDelete.parentId.getD "" then
        { m with children := m.children.filter (fun c => c != messageToDelete.id) }
      else m)
  else newMessages

/-! ### Basic association-map lemmas -/

theorem mapGet_mapSet_self {A : Type} (t : JsMap A) (k : String) (v : A) :
    mapGet (mapSet t k v) k = some v := by
  induction t with
  | nil => simp [mapGet, mapSet]
  | cons e rest ih =>
    by_cases h : e.1 = k
    · simp [mapGet, mapSet, h]
    · simpa [mapGet, mapSet, h, List.find?] using ih

theorem mapGet_mapSet_ne {A : Type} (t : JsMap A) (k k' : String) (v : A)
    (h : k' ≠ k) : mapGet (mapSet t k v) k' = mapGet t k' := by
  induction t with
  | nil =>
    have hk : (k == k') = false := by simp [Ne.symm h]
    simp [mapGet, mapSet, List.find?, hk]
  | cons e rest ih =>
    by_cases he : e.1 = k
    · have hk : (k == k') = false := by simp [Ne.symm h]
      have hk2 : (e.1 == k') = false := by simp [he, Ne.symm h]
      simp [mapGet, mapSet, List.find?, he, hk, hk2]
    · have h1 : (e.1 == k) = false := by simp [he]
      by_cases he' : e.1 = k'
      · have h2 : (e.1 == k') = true := by simp [he']
        simp [mapGet, mapSet, List.find?, h1, h2]
      · have h2 : (e.1 == k') = false := by simp [he']
        simpa [mapGet, mapSet, List.find?, h1, h2] using ih

/-! ### Demo data used by counterexamples and witnesses -/

/-- A user message record with the given id, parent and content. -/
def demoMsg (i : String) (p : Option String) (c : String) : ChatMessage :=
  { role := Role.user, content := c, id := i, parentId := p, children := [],
    createdAt := 0 }

/-- Tree with root `A` (only child `B`) and a second, childless root `X`. -/
def demoTreeAX : JsMap ChatMessage :=
  buildMessageTree
    [demoMsg "A" none "", demoMsg "B" (some "A") "", demoMsg "X" none ""]

/-- Tree with a single root node `a`. -/
def demoTreeA : JsMap ChatMessage :=
  buildMessageTree [demoMsg "a" none ""]

/-- Flat list with two records sharing id `c` under the same parent `p`. -/
def demoDupMsgs : List ChatMessage :=
  [demoMsg "p" none "", demoMsg "c" (some "p") "1", demoMsg "c" (some "p") "2"]

/-! ### C10 — dangling `selectedBranches['root']` entry -/

/-- C10: if the branch-selection map's `root` entry names an id that is not
present in the tree, `getActiveLeaf` returns `undefined` even when the tree
has roots; no fall-back to the first root is applied. -/
theorem getActiveLeaf_dangling_root_selection (fuel : Nat)
    (tree : JsMap ChatMessage) (sel : JsMap String) (rid : String)
    (hroots : (mapValues tree).filter (fun n => !truthyStr n.parentId) ≠ [])
    (hsel : mapGet sel "root" = some rid)
    (hmiss : mapGet tree rid = none) :
    getActiveLeaf fuel tree sel = none := by
  unfold getActiveLeaf
  cases hr : (mapValues tree).filter (fun n => !truthyStr n.parentId) with
  | nil => exact absurd hr hroots
  | cons r0 rest => simp [hsel, hmiss]

/-- Witness for C10 at a concrete one-root tree with `root ↦ "zz"`. -/
theorem getActiveLeaf_dangling_root_selection_witness :
    ((mapValues demoTreeA).filter (fun n => !truthyStr n.parentId) ≠ []
      ∧ mapGet [("root", "zz")] "root" = some "zz"
      ∧ mapGet demoTreeA "zz" = none)
    ∧ getActiveLeaf 3 demoTreeA [("root", "zz")] = none :=
  ⟨⟨by decide, by decide, by decide⟩,
    getActiveLeaf_dangling_root_selection 3 demoTreeA [("root", "zz")] "zz"
      (by decide) (by decide) (by decide)⟩

/-! ### C5 — `getSiblings` -/

/-- C5 counterexample: for an unknown id the code returns `[]`, not the
singleton list the claim describes. -/
theorem getSiblings_unknown_id_counterexample :
    getSiblings demoTreeA "zz" = []
    ∧ (getSiblings demoTreeA "zz").length ≠ 1 := by
  constructor <;> decide

/-- C5 (amended): `getSiblings` returns `[]` for an unknown id; all roots
when the node's `parentId` is falsy; `[node]` when the parent id is truthy
but absent from the tree; otherwise the parent's `children` resolved to
nodes (dropping dangling child ids). -/
theorem getSiblings_cases (tree : JsMap ChatMessage) (i : String) :
    (mapGet tree i = none → getSiblings tree i = [])
    ∧ (∀ node, mapGet tree i = some node → truthyStr node.parentId = false →
        getSiblings tree i =
          (mapValues tree).filter (fun n => !truthyStr n.parentId))
    ∧ (∀ node p, mapGet tree i = some node → node.parentId = some p →
        p ≠ "" → mapGet tree p = none → getSiblings tree i = [node])
    ∧ (∀ node p parent, mapGet tree i = some node → node.parentId = some p →
        p ≠ "" → mapGet tree p = some parent →
        getSiblings tree i =
          parent.children.filterMap (fun c => mapGet tree c)) := by
  refine ⟨fun h => by simp [getSiblings, h], ?_, ?_, ?_⟩
  · intro node h htr
    simp [getSiblings, h, htr]
  · intro node p h hp hne hmiss
    have htr : truthyStr (some p) = true := by simp [truthyStr, hne]
    simp [getSiblings, h, hp, htr, hmiss]
  · intro node p parent h hp hne hpar
    have htr : truthyStr (some p) = true := by simp [truthyStr, hne]
    simp [getSiblings, h, hp, htr, hpar]

/-- Witness for C5 (amended) at a concrete tree: sibling resolution through
an existing parent. -/
theorem getSiblings_cases_witness :
    (mapGet demoTreeAX "B" =
        some { demoMsg "B" (some "A") "" with children := [] }
      ∧ mapGet demoTreeAX "A" =
        some { demoMsg "A" none "" with children := ["B"] })
    ∧ getSiblings demoTreeAX "B" =
        [{ demoMsg "B" (some "A") "" with children := [] }] :=
  ⟨⟨by decide, by decide⟩, by
    have h := (getSiblings_cases demoTreeAX "B").2.2.2
      { demoMsg "B" (some "A") "" with children := [] } "A"
      { demoMsg "A" none "" with children := ["B"] }
      (by decide) (by decide) (by decide) (by decide)
    rw [h]; decide⟩

/-! ### C1 — `getActiveLeaf` descent rule -/

/-- Modelled from C1's wording: the selection entry is followed only when it
names an actual child of the current node; otherwise the last child is
followed.  Used to exhibit the divergence from the code. -/
def goActiveLeafClaimed (tree : JsMap ChatMessage) (sel : JsMap String) :
    Nat → ChatMessage → Option String
  | 0, _ => none
  | fuel + 1, current =>
    if current.children.isEmpty then some current.id
    else
      let chosen : Option String :=
        match mapGet sel current.id with
        | some s => if current.children.contains s then some s else none
        | none => none
      let nextId :=
        match chosen with
        | some s => s
        | none => (current.children.getLast?).getD ""
      match mapGet tree nextId with
      | some n => goActiveLeafClaimed tree sel fuel n
      | none => some current.id

/-- C1's wording applied from the chosen root, mirroring the code's root
selection. -/
def getActiveLeafClaimed (fuel : Nat) (tree : JsMap ChatMessage)
    (sel : JsMap String) : Option String :=
  let roots := (mapValues tree).filter (fun n => !truthyStr n.parentId)
  match roots with
  | [] => none
  | r0 :: _ =>
    let rootId :=
      match mapGet sel "root" with
      | some s => s
      | none => r0.id
    match mapGet tree rootId with
    | none => none
    | some current => goActiveLeafClaimed tree sel fuel current

/-- C1 counterexample: with roots `A` (child `B`) and `X`, and selection
`A ↦ X`, the code follows the selection to `X` although `X` is not a child
of `A`; the claim's rule would ignore it and return `B`. -/
theorem getActiveLeaf_nonchild_selection_counterexample :
    getActiveLeaf 5 demoTreeAX [("A", "X")] = some "X"
    ∧ getActiveLeafClaimed 5 demoTreeAX [("A", "X")] = some "B"
    ∧ "X" ≠ "B" := by
  refine ⟨by decide, by decide, by decide⟩

/-- Modelled from the amended C1: the node followed from `current` is the
selection target whenever the selection entry is truthy and its id is
anywhere in the tree (child or not); only otherwise is the last child's id
looked up. `none` means the id to follow is absent from the tree. -/
def stepAmended (tree : JsMap ChatMessage) (sel : JsMap String)
    (current : ChatMessage) : Option ChatMessage :=
  let lastChild : Option ChatMessage :=
    match current.children.getLast? with
    | some lastId => mapGet tree lastId
    | none => none
  match mapGet sel current.id with
  | some s =>
    if s ≠ "" then
      match mapGet tree s with
      | some n => some n
      | none => lastChild
    else lastChild
  | none => lastChild

/-- C1 (amended): each descent step of `getActiveLeaf` follows
`stepAmended`: a truthy selection entry naming any node present in the tree
is followed, whether or not it is a child of the current node; an entry
naming an id absent from the tree falls back to the last child; the walk
stops at a node without children (returning it), or at the current node if
the id to follow is absent from the tree. -/
theorem goActiveLeaf_step (tree : JsMap ChatMessage) (sel : JsMap String)
    (fuel : Nat) (current : ChatMessage) :
    goActiveLeaf tree sel (fuel + 1) current =
      if current.children.isEmpty then some current.id
      else
        match stepAmended tree sel current with
        | some n => goActiveLeaf tree sel fuel n
        | none => some current.id := by
  simp only [goActiveLeaf, stepAmended]
  cases hc : current.children.isEmpty with
  | true => simp [hc]
  | false =>
    cases h : mapGet sel current.id with
    | none =>
      cases hl : current.children.getLast? with
      | none => simp [truthyStr, h, hc, hl]
      | some lastId =>
        cases hn : mapGet tree lastId with
        | none => simp [truthyStr, h, hc, hl, hn]
        | some n => simp [truthyStr, h, hc, hl, hn]
    | some s =>
      by_cases hs : s = ""
      · cases hl : current.children.getLast? with
        | none => simp [truthyStr, h, hs, hc, hl]
        | some lastId =>
          cases hn : mapGet tree lastId with
          | none => simp [truthyStr, h, hs, hc, hl, hn]
          | some n => simp [truthyStr, h, hs, hc, hl, hn]
      · cases hn : mapGet tree s with
        | none =>
          cases hl : current.children.getLast? with
          | none => simp [truthyStr, h, hs, hc, hn, hl]
          | some lastId =>
            cases hn2 : mapGet tree lastId with
            | none => simp [truthyStr, h, hs, hc, hn, hl, hn2]
            | some n2 => simp [truthyStr, h, hs, hc, hn, hl, hn2]
        | some n => simp [truthyStr, h, hs, hc, hn]

/-! ### C6 — duplicate ids in `buildMessageTree` -/

/-- The first pass of `buildMessageTree`, abstracted over the start map. -/
def indexPass (t0 : JsMap ChatMessage) (msgs : List ChatMessage) :
    JsMap ChatMessage :=
  msgs.foldl (fun t msg => mapSet t msg.id { msg with children := [] }) t0

/-- The second (linking) pass of `buildMessageTree`, abstracted over the
start map. -/
def linkPass (t0 : JsMap ChatMessage) (msgs : List ChatMessage) :
    JsMap ChatMessage :=
  msgs.foldl
    (fun t msg =>
      if truthyStr msg.parentId then
        match mapGet t (msg.parentId.getD "") with
        | some parent =>
            mapSet t (msg.parentId.getD "")
              { parent with children := parent.children ++ [msg.id] }
        | none => t
      else t)
    t0

theorem buildMessageTree_eq_passes (msgs : List ChatMessage) :
    buildMessageTree msgs = linkPass (indexPass [] msgs) msgs := rfl

theorem indexPass_get (msgs : List ChatMessage) (t0 : JsMap ChatMessage)
    (i : String) :
    mapGet (indexPass t0 msgs) i =
      match (msgs.filter (fun m => m.id == i)).getLast? with
      | some m => some { m with children := [] }
      | none => mapGet t0 i := by
  induction msgs generalizing t0 with
  | nil => simp [indexPass]
  | cons m rest ih =>
    have hstep : indexPass t0 (m :: rest) =
        indexPass (mapSet t0 m.id { m with children := [] }) rest := rfl
    rw [hstep, ih]
    by_cases hm : m.id = i
    · cases hr : (rest.filter (fun m2 => m2.id == i)).getLast? with
      | some m' => simp [List.filter_cons, hm, List.getLast?_cons, hr]
      | none =>
        have hre : rest.filter (fun m2 => m2.id == i) = [] :=
          List.getLast?_eq_none_iff.mp hr
        simp [List.filter_cons, hm, List.getLast?_cons, hre, hm ▸
          mapGet_mapSet_self t0 m.id { m with children := [] }]
    · cases hr : (rest.filter (fun m2 => m2.id == i)).getLast? with
      | some m' =>
        simp [List.filter_cons, hm, List.getLast?_cons, hr]
      | none =>
        have hre : rest.filter (fun m2 => m2.id == i) = [] :=
          List.getLast?_eq_none_iff.mp hr
        simp [List.filter_cons, hm, hre,
          mapGet_mapSet_ne t0 m.id i { m with children := [] }
            (fun hh => hm hh.symm)]

theorem linkPass_get_none (msgs : List ChatMessage) (t : JsMap ChatMessage)
    (i : String) (h : mapGet t i = none) :
    mapGet (linkPass t msgs) i = none := by
  induction msgs generalizing t with
  | nil => simpa [linkPass] using h
  | cons m rest ih =>
    have hstep : ∀ t', linkPass t' (m :: rest) =
        linkPass
          (if truthyStr m.parentId then
            match mapGet t' (m.parentId.getD "") with
            | some parent =>
                mapSet t' (m.parentId.getD "")
                  { parent with children := parent.children ++ [m.id] }
            | none => t'
          else t') rest := fun _ => rfl
    rw [hstep]
    cases htr : truthyStr m.parentId with
    | false => simpa [htr] using ih t h
    | true =>
      simp only [htr, if_true]
      cases hp : mapGet t (m.parentId.getD "") with
      | none => exact ih t h
      | some parent =>
        have hne : i ≠ m.parentId.getD "" := by
          intro hh
          rw [hh, hp] at h
          exact Option.noConfusion h
        exact ih _ (by rw [mapGet_mapSet_ne _ _ _ _ hne]; exact h)

theorem linkPass_get_some (msgs : List ChatMessage) (t : JsMap ChatMessage)
    (i : String) (node : ChatMessage) (h : mapGet t i = some node) :
    mapGet (linkPass t msgs) i =
      some { node with children := node.children ++
        (msgs.filter (fun m => truthyStr m.parentId &&
          (m.parentId.getD "" == i))).map (·.id) } := by
  induction msgs generalizing t node with
  | nil => simpa [linkPass] using h
  | cons m rest ih =>
    have hstep : ∀ t', linkPass t' (m :: rest) =
        linkPass
          (if truthyStr m.parentId then
            match mapGet t' (m.parentId.getD "") with
            | some parent =>
                mapSet t' (m.parentId.getD "")
                  { parent with children := parent.children ++ [m.id] }
            | none => t'
          else t') rest := fun _ => rfl
    rw [hstep]
    cases htr : truthyStr m.parentId with
    | false =>
      simp only [htr, if_false, Bool.false_and, List.filter_cons]
      simpa [htr] using ih t node h
    | true =>
      simp only [htr, if_true]
      by_cases hpi : m.parentId.getD "" = i
      · rw [hpi, h]
        have h2 : mapGet (mapSet t i
            { node with children := node.children ++ [m.id] }) i =
            some { node with children := node.children ++ [m.id] } :=
          mapGet_mapSet_self ..
        have := ih _ _ h2
        rw [this]
        simp [List.filter_cons, htr, hpi]
      · cases hp : mapGet t (m.parentId.getD "") with
        | none =>
          rw [ih t node h]
          simp [List.filter_cons, htr, hpi]
        | some parent =>
          have h2 : mapGet (mapSet t (m.parentId.getD "")
              { parent with children := parent.children ++ [m.id] }) i =
              some node := by
            rw [mapGet_mapSet_ne _ _ _ _ (fun hh => hpi hh.symm)]
            exact h
          rw [ih _ _ h2]
          simp [List.filter_cons, htr, hpi]

/-- C6 counterexample: with two records sharing id `c` under parent `p`,
the tree keeps the second record's content (`Map.set` overwrites), and the
parent's `children` list contains `c` twice. -/
theorem buildMessageTree_duplicate_counterexample :
    (mapGet (buildMessageTree demoDupMsgs) "c").map (·.content) = some "2"
    ∧ (mapGet (buildMessageTree demoDupMsgs) "c").map (·.content) ≠ some "1"
    ∧ (mapGet (buildMessageTree demoDupMsgs) "p").map (·.children) =
        some ["c", "c"] := by
  refine ⟨by decide, by decide, by decide⟩

/-- C6 (amended): on duplicate ids `buildMessageTree` is fail-soft but keeps
the *last* record for the id (each insert overwrites the previous one), and
the linking pass processes every record, so a parent's `children` gains one
entry per record naming it — a duplicated id appears once per record.  The
equation fully characterizes the built map: the node at `i` is the last
record with that id, its `children` the ids of all records whose truthy
`parentId` equals `i`, in input order. -/
theorem buildMessageTree_duplicate_semantics (msgs : List ChatMessage)
    (i : String) :
    mapGet (buildMessageTree msgs) i =
      ((msgs.filter (fun m => m.id == i)).getLast?).map
        (fun m => { m with children :=
          (msgs.filter (fun m2 => truthyStr m2.parentId &&
            (m2.parentId.getD "" == i))).map (·.id) }) := by
  rw [buildMessageTree_eq_passes]
  cases hL : (msgs.filter (fun m => m.id == i)).getLast? with
  | none =>
    have h0 : mapGet (indexPass [] msgs) i = none := by
      rw [indexPass_get, hL]; rfl
    rw [linkPass_get_none msgs _ i h0]
    rfl
  | some m =>
    have h0 : mapGet (indexPass [] msgs) i = some { m with children := [] } := by
      rw [indexPass_get, hL]
    rw [linkPass_get_some msgs _ i _ h0]
    simp

/-! ### C9 — cascading delete -/

/-- `y` lies in the subtree of `x`: either `y = x`, or `y` is the id of a
record whose `parentId` chain reaches `x` (reachability through the
parent/child edges of the flat list). -/
inductive Desc (msgs : List ChatMessage) (x : String) : String → Prop
  | refl : Desc msgs x x
  | step {m : ChatMessage} {p : String} :
      m ∈ msgs → m.parentId = some p → Desc msgs x p → Desc msgs x m.id

/-- Fuel-bounded reachability through parent pointers, peeling from the
subtree root: `y` is reached from `x` by a chain of fewer than `f` edges. -/
def inSubtree (msgs : List ChatMessage) : Nat → String → String → Bool
  | 0, _, _ => false
  | f + 1, x, y =>
    y == x || msgs.any (fun m => m.parentId == some x && inSubtree msgs f m.id y)

/-- Executable descendant test: reachability with the same fuel budget
`deleteMessage` gives `collectIds`. -/
def isDescendant (msgs : List ChatMessage) (x y : String) : Bool :=
  inSubtree msgs (msgs.length + 1) x y

theorem Desc.trans {msgs : List ChatMessage} {x z y : String}
    (h1 : Desc msgs x z) (h2 : Desc msgs z y) : Desc msgs x y := by
  induction h2 with
  | refl => exact h1
  | step hm hp _ ih => exact Desc.step hm hp ih

theorem inSubtree_sound {msgs : List ChatMessage} :
    ∀ {f x y}, inSubtree msgs f x y = true → Desc msgs x y := by
  intro f
  induction f with
  | zero => intro x y h; simp [inSubtree] at h
  | succ f ih =>
    intro x y h
    rw [inSubtree] at h
    rcases Bool.or_eq_true _ _ |>.mp h with h1 | h2
    · rw [show (y == x) = decide (y = x) from rfl, decide_eq_true_iff] at h1
      exact h1 ▸ Desc.refl
    · rcases List.any_eq_true.mp h2 with ⟨m, hm, hcond⟩
      rcases Bool.and_eq_true _ _ |>.mp hcond with ⟨hpar, hrec⟩
      have hp : m.parentId = some x := by
        simpa using hpar
      exact Desc.trans (Desc.step hm hp Desc.refl) (ih hrec)

theorem inSubtree_mono {msgs : List ChatMessage} :
    ∀ {f f' x y}, f ≤ f' → inSubtree msgs f x y = true →
      inSubtree msgs f' x y = true := by
  intro f
  induction f with
  | zero => intro f' x y _ h; simp [inSubtree] at h
  | succ f ih =>
    intro f' x y hle h
    cases f' with
    | zero => omega
    | succ f'' =>
      rw [inSubtree] at h ⊢
      rcases Bool.or_eq_true _ _ |>.mp h with h1 | h2
      · exact Bool.or_eq_true _ _ |>.mpr (Or.inl h1)
      · rcases List.any_eq_true.mp h2 with ⟨m, hm, hcond⟩
        rcases Bool.and_eq_true _ _ |>.mp hcond with ⟨hpar, hrec⟩
        refine Bool.or_eq_true _ _ |>.mpr (Or.inr (List.any_eq_true.mpr
          ⟨m, hm, Bool.and_eq_true _ _ |>.mpr ⟨hpar, ih (by omega) hrec⟩⟩))

theorem inSubtree_snoc {msgs : List ChatMessage} {m : ChatMessage}
    {p : String} (hm : m ∈ msgs) (hp : m.parentId = some p) :
    ∀ {f x}, inSubtree msgs f x p = true →
      inSubtree msgs (f + 1) x m.id = true := by
  intro f
  induction f with
  | zero => intro x h; simp [inSubtree] at h
  | succ f ih =>
    intro x h
    rw [inSubtree] at h
    rcases Bool.or_eq_true _ _ |>.mp h with h1 | h2
    · rw [show (p == x) = decide (p = x) from rfl, decide_eq_true_iff] at h1
      subst h1
      rw [inSubtree]
      refine Bool.or_eq_true _ _ |>.mpr (Or.inr (List.any_eq_true.mpr
        ⟨m, hm, Bool.and_eq_true _ _ |>.mpr ⟨by simp [hp], ?_⟩⟩))
      rw [inSubtree]
      simp
    · rcases List.any_eq_true.mp h2 with ⟨m', hm', hcond⟩
      rcases Bool.and_eq_true _ _ |>.mp hcond with ⟨hpar, hrec⟩
      rw [inSubtree]
      exact Bool.or_eq_true _ _ |>.mpr (Or.inr (List.any_eq_true.mpr
        ⟨m', hm', Bool.and_eq_true _ _ |>.mpr ⟨hpar, ih hrec⟩⟩))

/-- Parent-pointer acyclicity witness: each record's parent ranks strictly
below the record. -/
def rankOk (rank : String → Nat) (m : ChatMessage) : Bool :=
  match m.parentId with
  | some p => rank p < rank m.id
  | none => true

theorem rankOk_lt {rank : String → Nat} {m : ChatMessage} {p : String}
    (h : rankOk rank m = true) (hp : m.parentId = some p) :
    rank p < rank m.id := by
  rw [rankOk, hp] at h
  simpa using h

theorem desc_rank_le {msgs : List ChatMessage} {x y : String}
    (rank : String → Nat)
    (hrank : ∀ m ∈ msgs, rankOk rank m = true)
    (h : Desc msgs x y) : rank x ≤ rank y := by
  induction h with
  | refl => exact le_refl _
  | step hm hp _ ih =>
    have := rankOk_lt (hrank _ hm) hp
    omega

theorem desc_inSubtree {msgs : List ChatMessage} {x y : String}
    (rank : String → Nat)
    (hrank : ∀ m ∈ msgs, rankOk rank m = true)
    (h : Desc msgs x y) :
    ∀ f, rank y - rank x < f → inSubtree msgs f x y = true := by
  induction h with
  | refl =>
    intro f hf
    cases f with
    | zero => omega
    | succ f => rw [inSubtree]; simp
  | step hm hp hd ih =>
    rename_i m p
    intro f hf
    have hlt : rank p < rank m.id := rankOk_lt (hrank _ hm) hp
    have hxp : rank x ≤ rank p := desc_rank_le rank hrank hd
    cases f with
    | zero => omega
    | succ f =>
      exact inSubtree_snoc hm hp (ih f (by omega))

theorem collectIds_mem {msgs : List ChatMessage} :
    ∀ {f x y}, y ∈ collectIds msgs f x ↔ inSubtree msgs f x y = true := by
  intro f
  induction f with
  | zero => intro x y; simp [collectIds, inSubtree]
  | succ f ih =>
    intro x y
    rw [collectIds, inSubtree]
    simp only [List.mem_cons, List.mem_flatMap, List.mem_filter,
      Bool.or_eq_true, List.any_eq_true, Bool.and_eq_true, beq_iff_eq]
    constructor
    · rintro (h1 | ⟨child, ⟨hc, hparent⟩, hrec⟩)
      · exact Or.inl (by simp [h1])
      · exact Or.inr ⟨child, hc, by simpa using hparent, ih.mp hrec⟩
    · rintro (h1 | ⟨m, hm, hparent, hrec⟩)
      · exact Or.inl (by simpa using h1)
      · exact Or.inr ⟨m, ⟨hm, by simpa using hparent⟩, ih.mpr hrec⟩

theorem countP_not_eq {α : Type} (l : List α) (p : α → Bool) :
    l.countP (fun a => !p a) = l.length - l.countP p := by
  induction l with
  | nil => simp
  | cons a t ih =>
    have hle : t.countP p ≤ t.length := List.countP_le_length p
    by_cases h : p a = true <;> (simp [List.countP_cons, h, ih]; try omega)

/-- Flat demo list: chain `A → B → C` (`B` child of `A`, `C` child of `B`). -/
def demoDelMsgs : List ChatMessage :=
  [{ demoMsg "A" none "" with children := ["B"] },
   { demoMsg "B" (some "A") "" with children := ["C"] },
   { demoMsg "C" (some "B") "" with children := [] }]

/-- Depth ranking for `demoDelMsgs`. -/
def demoRank (s : String) : Nat :=
  if s = "A" then 0 else if s = "B" then 1 else 2

/-- C9: deleting node `X` removes exactly `X` and its descendants through
parent/child edges: the executable reachability test agrees with the
`Desc` relation; the post-delete count is the pre-delete count minus the
subtree size; the former parent's `children` no longer references `X`; and
every message outside the subtree survives, unmodified except for the one
parent entry.  `rank` witnesses acyclicity of the parent pointers (each
child ranks strictly above its parent, with ranks bounded by the list
length), which is what makes the source's unbounded recursion terminate. -/
theorem deleteMessage_cascades (msgs : List ChatMessage) (X : ChatMessage)
    (rank : String → Nat) (hX : X ∈ msgs)
    (hrank : ∀ m ∈ msgs, rankOk rank m = true)
    (hbound : ∀ m ∈ msgs, rank m.id ≤ msgs.length) :
    (∀ y, isDescendant msgs X.id y = true ↔ Desc msgs X.id y)
    ∧ (deleteMessage msgs X).length =
        msgs.length - msgs.countP (fun m => isDescendant msgs X.id m.id)
    ∧ (∀ p, X.parentId = some p → p ≠ "" →
        ∀ m ∈ deleteMessage msgs X, m.id = p → X.id ∉ m.children)
    ∧ (∀ m ∈ msgs, ¬ Desc msgs X.id m.id →
        (truthyStr X.parentId = true → m.id = X.parentId.getD "" →
          { m with children := m.children.filter (fun c => c != X.id) }
            ∈ deleteMessage msgs X)
        ∧ ((truthyStr X.parentId = true → m.id ≠ X.parentId.getD "") →
          m ∈ deleteMessage msgs X)) := by
  have bridge : ∀ y, isDescendant msgs X.id y = true ↔ Desc msgs X.id y := by
    intro y
    constructor
    · exact inSubtree_sound
    · intro hd
      apply desc_inSubtree rank hrank hd
      have hy : rank y ≤ msgs.length := by
        cases hd with
        | refl => exact hbound X hX
        | step hm _ _ => exact hbound _ hm
      omega
  have hcont : ∀ y,
      ((collectIds msgs (msgs.length + 1) X.id).contains y) =
        isDescendant msgs X.id y := by
    intro y
    refine Bool.coe_iff_coe.mp ?_
    rw [isDescendant, ← collectIds_mem]
    simp [List.contains]
  have hfun : (fun m : ChatMessage =>
        (collectIds msgs (msgs.length + 1) X.id).contains m.id) =
      (fun m : ChatMessage => isDescendant msgs X.id m.id) :=
    funext fun m => hcont m.id
  have hfun2 : (fun m : ChatMessage =>
        !((collectIds msgs (msgs.length + 1) X.id).contains m.id)) =
      (fun m : ChatMessage => !(isDescendant msgs X.id m.id)) :=
    funext fun m => by rw [hcont m.id]
  have hlen : (msgs.filter (fun m =>
      !((collectIds msgs (msgs.length + 1) X.id).contains m.id))).length =
      msgs.length - msgs.countP (fun m => isDescendant msgs X.id m.id) := by
    rw [← List.countP_eq_length_filter, hfun2, countP_not_eq]
  have hsurv : ∀ m ∈ msgs, ¬ Desc msgs X.id m.id →
      m ∈ msgs.filter (fun m =>
        !((collectIds msgs (msgs.length + 1) X.id).contains m.id)) := by
    intro m hm hnd
    refine List.mem_filter.mpr ⟨hm, ?_⟩
    rw [hcont m.id]
    cases hd : isDescendant msgs X.id m.id with
    | false => rfl
    | true => exact absurd ((bridge m.id).mp hd) hnd
  refine ⟨bridge, ?_, ?_, ?_⟩
  · cases htr : truthyStr X.parentId with
    | true => simp only [deleteMessage, htr, if_true, List.length_map, hlen]
    | false => simp only [deleteMessage, htr, Bool.false_eq_true, if_false, hlen]
  · intro p hp hne m hmem hid
    have htr : truthyStr X.parentId = true := by simp [truthyStr, hp, hne]
    rw [deleteMessage] at hmem
    simp only [htr, if_true] at hmem
    rcases List.mem_map.mp hmem with ⟨m0, _, hfm⟩
    by_cases h0 : m0.id = X.parentId.getD ""
    · have : m = { m0 with children :=
          m0.children.filter (fun c => c != X.id) } := by
        rw [← hfm]; simp [h0]
      rw [this]
      intro hmemc
      have := List.mem_filter.mp hmemc
      simp at this
    · have : m = m0 := by rw [← hfm]; simp [h0]
      rw [hp] at h0
      exact absurd (this ▸ hid) h0
  · intro m hm hnd
    constructor
    · intro htr hid
      rw [deleteMessage]
      simp only [htr, if_true]
      exact List.mem_map.mpr ⟨m, hsurv m hm hnd, by simp [hid]⟩
    · intro hne
      cases htr : truthyStr X.parentId with
      | false =>
        rw [deleteMessage]
        simp only [htr, Bool.false_eq_true, if_false]
        exact hsurv m hm hnd
      | true =>
        rw [deleteMessage]
        simp only [htr, if_true]
        exact List.mem_map.mpr ⟨m, hsurv m hm hnd, by simp [hne htr]⟩

/-- Witness for C9 on the chain `A → B → C`, deleting `B`: the subtree
`{B, C}` is removed (3 − 2 = 1 message left) and `A` no longer lists `B`. -/
theorem deleteMessage_cascades_witness :
    ({ demoMsg "B" (some "A") "" with children := ["C"] } ∈ demoDelMsgs
      ∧ (∀ m ∈ demoDelMsgs, rankOk demoRank m = true)
      ∧ (∀ m ∈ demoDelMsgs, demoRank m.id ≤ demoDelMsgs.length))
    ∧ (deleteMessage demoDelMsgs
        { demoMsg "B" (some "A") "" with children := ["C"] }).length =
      demoDelMsgs.length - demoDelMsgs.countP
        (fun m => isDescendant demoDelMsgs "B" m.id) :=
  ⟨⟨by decide, by decide, by decide⟩,
    (deleteMessage_cascades demoDelMsgs
      { demoMsg "B" (some "A") "" with children := ["C"] } demoRank
      (by decide) (by decide) (by decide)).2.1⟩

/-! ### JSON values

`Json` models the JavaScript values exchanged on the wire (numbers
restricted to integers, which covers every field the protocol uses).
`JsonItems`/`JsonFields` are the array/object spines, kept as mutual
inductives so that structural induction over nested values is available. -/

mutual
inductive Json where
  | null
  | bool (b : Bool)
  | num (n : Int)
  | str (s : String)
  | arr (xs : JsonItems)
  | obj (fs : JsonFields)
deriving DecidableEq, Repr

inductive JsonItems where
  | nil
  | cons (hd : Json) (tl : JsonItems)
deriving DecidableEq, Repr

inductive JsonFields where
  | nil
  | cons (k : String) (v : Json) (tl : JsonFields)
deriving DecidableEq, Repr
end

/-- Build an object spine from a list of key/value pairs. -/
def JsonFields.ofList : List (String × Json) → JsonFields
  | [] => .nil
  | (k, v) :: rest => .cons k v (JsonFields.ofList rest)

/-- First value bound to `key` (JS property lookup on a plain object). -/
def JsonFields.findVal : JsonFields → String → Option Json
  | .nil, _ => none
  | .cons k v tl, key => if k == key then some v else tl.findVal key

/-- The keys of an object spine, in order. -/
def JsonFields.keys : JsonFields → List String
  | .nil => []
  | .cons k _ tl => k :: tl.keys

/-- JS property access `j[k]`: `undefined` (`none`) unless `j` is an object
with the key. -/
def jget (j : Json) (k : String) : Option Json :=
  match j with
  | .obj fs => fs.findVal k
  | _ => none

/-- JS truthiness of a possibly-`undefined` JSON value. -/
def jtruthy : Option Json → Bool
  | none => false
  | some .null => false
  | some (.bool b) => b
  | some (.num n) => n != 0
  | some (.str s) => s != ""
  | some (.arr _) => true
  | some (.obj _) => true

/-- JS nullish coalescing `a ?? b` on property-access results. -/
def jsNullish (a b : Option Json) : Option Json :=
  match a with
  | none => b
  | some .null => b
  | some v => some v

/-! ### Serialization (model of `JSON.stringify`) -/

/-- `{` as a character (written via its code point). -/
def lbrace : Char := Char.ofNat 123

/-- `}` as a character (written via its code point). -/
def rbrace : Char := Char.ofNat 125

def hexDigit (n : Nat) : Char :=
  if n < 10 then Char.ofNat (48 + n) else Char.ofNat (87 + n)

/-- Decimal digits, most significant first; structural fuel keeps the
definition kernel-reducible. -/
def natDigitsAux : Nat → Nat → List Char
  | 0, _ => []
  | fuel + 1, n =>
    if n < 10 then [Char.ofNat (48 + n)]
    else natDigitsAux fuel (n / 10) ++ [Char.ofNat (48 + n % 10)]

/-- Decimal digits of `n`, most significant first. -/
def natDigits (n : Nat) : List Char :=
  natDigitsAux (n + 1) n

theorem natDigitsAux_fuel (f1 f2 n : Nat) (h1 : n < f1) (h2 : n < f2) :
    natDigitsAux f1 n = natDigitsAux f2 n := by
  induction n using Nat.strong_induction_on generalizing f1 f2 with
  | _ n ih =>
    obtain ⟨g1, rfl⟩ : ∃ g, f1 = g + 1 := ⟨f1 - 1, by omega⟩
    obtain ⟨g2, rfl⟩ : ∃ g, f2 = g + 1 := ⟨f2 - 1, by omega⟩
    rw [natDigitsAux, natDigitsAux]
    by_cases hn : n < 10
    · rw [if_pos hn, if_pos hn]
    · rw [if_neg hn, if_neg hn]
      have hlt : n / 10 < n := Nat.div_lt_self (by omega) (by omega)
      rw [ih (n / 10) hlt g1 g2 (by omega) (by omega)]

/-- The recursive characterization of `natDigits`. -/
theorem natDigits_eq (n : Nat) :
    natDigits n = if n < 10 then [Char.ofNat (48 + n)]
      else natDigits (n / 10) ++ [Char.ofNat (48 + n % 10)] := by
  rw [natDigits, natDigitsAux]
  by_cases hn : n < 10
  · rw [if_pos hn, if_pos hn]
  · rw [if_neg hn, if_neg hn, natDigits]
    have hlt : n / 10 < n := Nat.div_lt_self (by omega) (by omega)
    rw [natDigitsAux_fuel n (n / 10 + 1) (n / 10) (by omega) (by omega)]

/-- How `JSON.stringify` escapes one character inside a string literal. -/
def escapeChar (c : Char) : List Char :=
  if c = '"' then ['\\', '"']
  else if c = '\\' then ['\\', '\\']
  else if c = '\n' then ['\\', 'n']
  else if c = '\r' then ['\\', 'r']
  else if c = '\t' then ['\\', 't']
  else if c = Char.ofNat 8 then ['\\', 'b']
  else if c = Char.ofNat 12 then ['\\', 'f']
  else if c.toNat < 32 then
    ['\\', 'u', '0', '0', hexDigit (c.toNat / 16), hexDigit (c.toNat % 16)]
  else [c]

/-- A JSON string literal for `s`, quotes included. -/
def encodeStr (s : String) : List Char :=
  '"' :: s.data.flatMap escapeChar ++ ['"']

mutual
/-- Model of `JSON.stringify` (no added whitespace, insertion-ordered
fields, integers in decimal). -/
def stringify : Json → List Char
  | .str s => encodeStr s
  | .num n => if n < 0 then '-' :: natDigits n.natAbs else natDigits n.natAbs
  | .null => "null".data
  | .bool true => "true".data
  | .bool false => "false".data
  | .arr xs => '[' :: stringifyItems xs ++ [']']
  | .obj fs => lbrace :: stringifyFields fs ++ [rbrace]

def stringifyItems : JsonItems → List Char
  | .nil => []
  | .cons x .nil => stringify x
  | .cons x (.cons y tl) => stringify x ++ ',' :: stringifyItems (.cons y tl)

def stringifyFields : JsonFields → List Char
  | .nil => []
  | .cons k v .nil => encodeStr k ++ ':' :: stringify v
  | .cons k v (.cons k2 v2 tl) =>
      encodeStr k ++ ':' :: stringify v ++
        ',' :: stringifyFields (.cons k2 v2 tl)
end

/-! ### Parsing (model of `JSON.parse`, strict grammar, no whitespace) -/

def hexVal (c : Char) : Option Nat :=
  if 48 ≤ c.toNat ∧ c.toNat ≤ 57 then some (c.toNat - 48)
  else if 97 ≤ c.toNat ∧ c.toNat ≤ 102 then some (c.toNat - 87)
  else if 65 ≤ c.toNat ∧ c.toNat ≤ 70 then some (c.toNat - 55)
  else none

def isDigitChar (c : Char) : Bool :=
  48 ≤ c.toNat && c.toNat ≤ 57

/-- Longest digit run at the head of the input, as values. -/
def takeDigits : List Char → (List Nat × List Char)
  | [] => ([], [])
  | c :: rest =>
    if isDigitChar c then
      let (ds, r) := takeDigits rest
      ((c.toNat - 48) :: ds, r)
    else ([], c :: rest)

def digitsToNat (ds : List Nat) : Nat :=
  ds.foldl (fun a d => a * 10 + d) 0

/-- Body of a JSON string literal after the opening quote: returns the
decoded characters and the input after the closing quote.  Raw control
characters are rejected, escape sequences are decoded; `\uXXXX` is decoded
when it denotes a valid scalar value. -/
def parseStringBody : List Char → Option (List Char × List Char)
  | [] => none
  | c :: rest =>
    if c = '"' then some ([], rest)
    else if c = '\\' then
      match rest with
      | [] => none
      | e :: rest2 =>
        if e = '"' then
          (parseStringBody rest2).map (fun p => ('"' :: p.1, p.2))
        else if e = '\\' then
          (parseStringBody rest2).map (fun p => ('\\' :: p.1, p.2))
        else if e = '/' then
          (parseStringBody rest2).map (fun p => ('/' :: p.1, p.2))
        else if e = 'n' then
          (parseStringBody rest2).map (fun p => ('\n' :: p.1, p.2))
        else if e = 'r' then
          (parseStringBody rest2).map (fun p => ('\r' :: p.1, p.2))
        else if e = 't' then
          (parseStringBody rest2).map (fun p => ('\t' :: p.1, p.2))
        else if e = 'b' then
          (parseStringBody rest2).map (fun p => (Char.ofNat 8 :: p.1, p.2))
        else if e = 'f' then
          (parseStringBody rest2).map (fun p => (Char.ofNat 12 :: p.1, p.2))
        else if e = 'u' then
          match rest2 with
          | h1 :: h2 :: h3 :: h4 :: rest3 =>
            match hexVal h1, hexVal h2, hexVal h3, hexVal h4 with
            | some d1, some d2, some d3, some d4 =>
              let n := ((d1 * 16 + d2) * 16 + d3) * 16 + d4
              if n < 55296 ∨ 57344 ≤ n then
                (parseStringBody rest3).map (fun p => (Char.ofNat n :: p.1, p.2))
              else none
            | _, _, _, _ => none
          | _ => none
        else none
    else if c.toNat < 32 then none
    else (parseStringBody rest).map (fun p => (c :: p.1, p.2))

/-- Consume an exact literal character sequence, returning the remainder. -/
def skipLit : List Char → List Char → Option (List Char)
  | [], rest => some rest
  | _ :: _, [] => none
  | p :: ps, c :: rest => if c = p then skipLit ps rest else none

mutual
/-- Value parser: fuel bounds the nesting depth. -/
def parseJsonAux : Nat → List Char → Option (Json × List Char)
  | 0, _ => none
  | _ + 1, [] => none
  | fuel + 1, c :: rest =>
    if c = 'n' then
      (skipLit ['u', 'l', 'l'] rest).map (fun r => (Json.null, r))
    else if c = 't' then
      (skipLit ['r', 'u', 'e'] rest).map (fun r => (Json.bool true, r))
    else if c = 'f' then
      (skipLit ['a', 'l', 's', 'e'] rest).map (fun r => (Json.bool false, r))
    else if c = '-' then
      let (ds, r) := takeDigits rest
      if ds.isEmpty then none
      else some (.num (-(digitsToNat ds : Int)), r)
    else if isDigitChar c then
      let (ds, r) := takeDigits (c :: rest)
      some (.num (digitsToNat ds), r)
    else if c = '"' then
      (parseStringBody rest).map (fun p => (.str (String.mk p.1), p.2))
    else if c = '[' then
      if rest.head? = some ']' then some (.arr .nil, rest.tail)
      else (parseItems fuel rest).map (fun p => (.arr p.1, p.2))
    else if c = lbrace then
      if rest.head? = some rbrace then some (.obj .nil, rest.tail)
      else (parseFields fuel rest).map (fun p => (.obj p.1, p.2))
    else none

/-- One-or-more comma-separated values up to and including `]`. -/
def parseItems : Nat → List Char → Option (JsonItems × List Char)
  | 0, _ => none
  | fuel + 1, input =>
    (parseJsonAux fuel input).bind fun p =>
      if p.2.head? = some ',' then
        (parseItems fuel p.2.tail).map (fun q => (.cons p.1 q.1, q.2))
      else if p.2.head? = some ']' then some (.cons p.1 .nil, p.2.tail)
      else none

/-- One-or-more `"key":value` pairs up to and including the closing brace. -/
def parseFields : Nat → List Char → Option (JsonFields × List Char)
  | 0, _ => none
  | fuel + 1, input =>
    if input.head? = some '"' then
      (parseStringBody input.tail).bind fun kp =>
        if kp.2.head? = some ':' then
          (parseJsonAux fuel kp.2.tail).bind fun vp =>
            if vp.2.head? = some ',' then
              (parseFields fuel vp.2.tail).map
                (fun q => (.cons (String.mk kp.1) vp.1 q.1, q.2))
            else if vp.2.head? = some rbrace then
              some (.cons (String.mk kp.1) vp.1 .nil, vp.2.tail)
            else none
        else none
    else none
end

/-- Model of `JSON.parse`: parse one value consuming the entire input. -/
def jsonParse (s : List Char) : Option Json :=
  match parseJsonAux (s.length + 1) s with
  | some (j, []) => some j
  | _ => none

/-! ### Round-trip: `jsonParse (stringify j) = some j` -/

theorem char_toNat_ofNat {n : Nat} (h : n < 55296) :
    (Char.ofNat n).toNat = n := by
  have hv : n.isValidChar := Or.inl h
  simp [Char.ofNat, hv, Char.ofNatAux, Char.toNat]
  rfl

theorem char_ne_of_toNat_ne {c d : Char} (h : c.toNat ≠ d.toNat) : c ≠ d :=
  fun hc => h (congrArg Char.toNat hc)

theorem natDigits_ne_nil (n : Nat) : natDigits n ≠ [] := by
  rw [natDigits_eq]
  split <;> simp

theorem natDigits_digit (n : Nat) :
    ∀ c ∈ natDigits n, isDigitChar c = true := by
  induction n using Nat.strong_induction_on with
  | _ n ih =>
    rw [natDigits_eq]
    split
    · intro c hc
      simp only [List.mem_singleton] at hc
      subst hc
      have ht : (Char.ofNat (48 + n)).toNat = 48 + n :=
        char_toNat_ofNat (by omega)
      simp [isDigitChar, ht]
      omega
    · intro c hc
      rcases List.mem_append.mp hc with h1 | h2
      · exact ih (n / 10) (Nat.div_lt_self (by omega) (by omega)) c h1
      · simp only [List.mem_singleton] at h2
        subst h2
        have hm : n % 10 < 10 := Nat.mod_lt _ (by omega)
        have ht : (Char.ofNat (48 + n % 10)).toNat = 48 + n % 10 :=
          char_toNat_ofNat (by omega)
        simp [isDigitChar, ht]
        omega

theorem takeDigits_append (ds rest : List Char)
    (hds : ∀ c ∈ ds, isDigitChar c = true)
    (hrest : ∀ c, rest.head? = some c → isDigitChar c = false) :
    takeDigits (ds ++ rest) = (ds.map (fun c => c.toNat - 48), rest) := by
  induction ds with
  | nil =>
    cases rest with
    | nil => rfl
    | cons c r =>
      have := hrest c rfl
      simp [takeDigits, this]
  | cons c ds ih =>
    have hc := hds c (by simp)
    have ihr := ih (fun d hd => hds d (by simp [hd]))
    simp [takeDigits, hc, ihr]

theorem digitsToNat_append_one (xs : List Nat) (d : Nat) :
    digitsToNat (xs ++ [d]) = digitsToNat xs * 10 + d := by
  simp [digitsToNat, List.foldl_append]

theorem digitsToNat_natDigits (n : Nat) :
    digitsToNat ((natDigits n).map (fun c => c.toNat - 48)) = n := by
  induction n using Nat.strong_induction_on with
  | _ n ih =>
    rw [natDigits_eq]
    split
    · rename_i h
      have ht : (Char.ofNat (48 + n)).toNat = 48 + n :=
        char_toNat_ofNat (by omega)
      simp [digitsToNat, ht]
    · rename_i h
      have hd := ih (n / 10) (Nat.div_lt_self (by omega) (by omega))
      have hm : n % 10 < 10 := Nat.mod_lt _ (by omega)
      have ht : (Char.ofNat (48 + n % 10)).toNat = 48 + n % 10 :=
        char_toNat_ofNat (by omega)
      rw [List.map_append]
      simp only [List.map_cons, List.map_nil]
      rw [digitsToNat_append_one, hd]
      simp [ht]
      omega

theorem hexVal_hexDigit {d : Nat} (h : d < 16) :
    hexVal (hexDigit d) = some d := by
  interval_cases d <;> decide

theorem parseStringBody_encode (cs : List Char) (rest : List Char) :
    parseStringBody (cs.flatMap escapeChar ++ '"' :: rest) =
      some (cs, rest) := by
  induction cs with
  | nil =>
    simp only [List.flatMap_nil, List.nil_append]
    unfold parseStringBody
    simp
  | cons c tl ih =>
    rw [List.flatMap_cons, List.append_assoc]
    by_cases h1 : c = '"'
    · subst h1
      rw [show escapeChar '"' = ['\\', '"'] from by decide]
      conv_lhs => rw [parseStringBody.eq_def]
      simp [ih]
    · by_cases h2 : c = '\\'
      · subst h2
        rw [show escapeChar '\\' = ['\\', '\\'] from by decide]
        conv_lhs => rw [parseStringBody.eq_def]
        simp [ih]
      · by_cases h3 : c = '\n'
        · subst h3
          rw [show escapeChar '\n' = ['\\', 'n'] from by decide]
          conv_lhs => rw [parseStringBody.eq_def]
          simp [ih]
        · by_cases h4 : c = '\r'
          · subst h4
            rw [show escapeChar '\r' = ['\\', 'r'] from by decide]
            conv_lhs => rw [parseStringBody.eq_def]
            simp [ih]
          · by_cases h5 : c = '\t'
            · subst h5
              rw [show escapeChar '\t' = ['\\', 't'] from by decide]
              conv_lhs => rw [parseStringBody.eq_def]
              simp [ih]
            · by_cases h6 : c = Char.ofNat 8
              · subst h6
                rw [show escapeChar (Char.ofNat 8) = ['\\', 'b'] from by decide]
                conv_lhs => rw [parseStringBody.eq_def]
                simp [ih]
              · by_cases h7 : c = Char.ofNat 12
                · subst h7
                  rw [show escapeChar (Char.ofNat 12) = ['\\', 'f'] from by decide]
                  conv_lhs => rw [parseStringBody.eq_def]
                  simp [ih]
                · by_cases h8 : c.toNat < 32
                  · have hd1 : c.toNat / 16 < 16 := by omega
                    have hd2 : c.toNat % 16 < 16 := by omega
                    have hx1 := hexVal_hexDigit hd1
                    have hx2 := hexVal_hexDigit hd2
                    have hesc : escapeChar c =
                        ['\\', 'u', '0', '0', hexDigit (c.toNat / 16),
                          hexDigit (c.toNat % 16)] := by
                      rw [escapeChar]
                      simp [h1, h2, h3, h4, h5, h6, h7, h8]
                    rw [hesc]
                    conv_lhs => rw [parseStringBody.eq_def]
                    simp only [List.cons_append, List.nil_append]
                    simp [hx1, hx2, show hexVal '0' = some 0 from by decide, ih]
                    constructor
                    · exact Or.inl (by omega)
                    · rw [show c.toNat / 16 * 16 + c.toNat % 16 = c.toNat from
                        by omega, Char.ofNat_toNat]
                  · have hesc : escapeChar c = [c] := by
                      rw [escapeChar]
                      simp [h1, h2, h3, h4, h5, h6, h7, h8]
                    rw [hesc]
                    conv_lhs => rw [parseStringBody.eq_def]
                    simp only [List.cons_append, List.nil_append]
                    simp [h1, h2, h8, ih]

mutual
/-- Parser fuel needed for a value: nesting depth plus spine lengths. -/
def jdepth : Json → Nat
  | .arr xs => jdepthItems xs + 1
  | .obj fs => jdepthFields fs + 1
  | _ => 1

def jdepthItems : JsonItems → Nat
  | .nil => 0
  | .cons x tl => max (jdepth x) (jdepthItems tl) + 1

def jdepthFields : JsonFields → Nat
  | .nil => 0
  | .cons _ v tl => max (jdepth v) (jdepthFields tl) + 1
end

/-- Guard for number parsing: what follows a serialized number must not be
another digit (maximal-munch). -/
def numOk : Json → List Char → Bool
  | .num _, c :: _ => !isDigitChar c
  | _, _ => true

theorem numOk_of_nondigit {c : Char} (j : Json) (r : List Char)
    (h : isDigitChar c = false) : numOk j (c :: r) = true := by
  cases j <;> simp [numOk, h]

theorem natDigits_head_digit (n : Nat) :
    ∃ c cs, natDigits n = c :: cs ∧ isDigitChar c = true := by
  cases hd : natDigits n with
  | nil => exact absurd hd (natDigits_ne_nil n)
  | cons c cs =>
    exact ⟨c, cs, rfl, natDigits_digit n c (by rw [hd]; simp)⟩

/-- Every serialization is nonempty and never starts with `]` or `}` (used
to steer the parser's bracket lookahead). -/
theorem stringify_head (j : Json) :
    ∃ c cs, stringify j = c :: cs ∧ c ≠ ']' ∧ c ≠ rbrace := by
  cases j with
  | null => exact ⟨'n', _, rfl, by decide⟩
  | bool b =>
    cases b
    · exact ⟨'f', _, rfl, by decide⟩
    · exact ⟨'t', _, rfl, by decide⟩
  | num n =>
    rw [stringify]
    by_cases h : n < 0
    · exact ⟨'-', _, by rw [if_pos h], by decide, by decide⟩
    · rcases natDigits_head_digit n.natAbs with ⟨c, cs, hnd, hc⟩
      refine ⟨c, cs, by rw [if_neg h, hnd], ?_, ?_⟩
      · refine char_ne_of_toNat_ne ?_
        simp [isDigitChar] at hc
        have : (']' : Char).toNat = 93 := by decide
        omega
      · refine char_ne_of_toNat_ne ?_
        simp [isDigitChar] at hc
        have : rbrace.toNat = 125 := by decide
        omega
  | str s => exact ⟨'"', _, rfl, by decide⟩
  | arr xs => exact ⟨'[', _, rfl, by decide⟩
  | obj fs => exact ⟨lbrace, _, rfl, by decide⟩

theorem parse_null_chars (fuel : Nat) (rest : List Char) :
    parseJsonAux (fuel + 1) (['n', 'u', 'l', 'l'] ++ rest) =
      some (.null, rest) := by
  conv_lhs => rw [parseJsonAux.eq_def]
  simp [skipLit]

theorem parse_true_chars (fuel : Nat) (rest : List Char) :
    parseJsonAux (fuel + 1) (['t', 'r', 'u', 'e'] ++ rest) =
      some (.bool true, rest) := by
  conv_lhs => rw [parseJsonAux.eq_def]
  simp [skipLit]

theorem parse_false_chars (fuel : Nat) (rest : List Char) :
    parseJsonAux (fuel + 1) (['f', 'a', 'l', 's', 'e'] ++ rest) =
      some (.bool false, rest) := by
  conv_lhs => rw [parseJsonAux.eq_def]
  simp [skipLit]

theorem parse_natDigits (n : Nat) (fuel : Nat) (rest : List Char)
    (hrest : ∀ c, rest.head? = some c → isDigitChar c = false) :
    parseJsonAux (fuel + 1) (natDigits n ++ rest) =
      some (.num (n : Int), rest) := by
  rcases natDigits_head_digit n with ⟨c, cs, hnd, hc⟩
  have htd : takeDigits (natDigits n ++ rest) =
      ((natDigits n).map (fun c => c.toNat - 48), rest) :=
    takeDigits_append _ _ (natDigits_digit n) hrest
  have hton : (48 : Nat) ≤ c.toNat ∧ c.toNat ≤ 57 := by
    simpa [isDigitChar] using hc
  have hn : c ≠ 'n' := char_ne_of_toNat_ne (by
    have : ('n' : Char).toNat = 110 := by decide
    omega)
  have ht : c ≠ 't' := char_ne_of_toNat_ne (by
    have : ('t' : Char).toNat = 116 := by decide
    omega)
  have hf : c ≠ 'f' := char_ne_of_toNat_ne (by
    have : ('f' : Char).toNat = 102 := by decide
    omega)
  have hm : c ≠ '-' := char_ne_of_toNat_ne (by
    have : ('-' : Char).toNat = 45 := by decide
    omega)
  rw [hnd]
  conv_lhs => rw [parseJsonAux.eq_def]
  simp only [List.cons_append]
  rw [show (natDigits n ++ rest) = c :: (cs ++ rest) from by
    rw [hnd]; simp] at htd
  simp [hn, ht, hf, hm, hc, htd]
  exact digitsToNat_natDigits n

theorem parse_num_chars (n : Int) (fuel : Nat) (rest : List Char)
    (hrest : ∀ c, rest.head? = some c → isDigitChar c = false) :
    parseJsonAux (fuel + 1) (stringify (.num n) ++ rest) =
      some (.num n, rest) := by
  rw [stringify]
  by_cases h : n < 0
  · rw [if_pos h]
    have htd : takeDigits (natDigits n.natAbs ++ rest) =
        ((natDigits n.natAbs).map (fun c => c.toNat - 48), rest) :=
      takeDigits_append _ _ (natDigits_digit _) hrest
    conv_lhs => rw [parseJsonAux.eq_def]
    simp only [List.cons_append]
    simp [htd]
    constructor
    · intro hemp
      exact absurd hemp (natDigits_ne_nil _)
    · rw [digitsToNat_natDigits]
      omega
  · rw [if_neg h]
    have : (n.natAbs : Int) = n := by omega
    rw [← this]
    exact parse_natDigits n.natAbs fuel rest hrest

theorem parse_str_chars (s : String) (fuel : Nat) (rest : List Char) :
    parseJsonAux (fuel + 1) (stringify (.str s) ++ rest) =
      some (.str s, rest) := by
  rw [stringify, encodeStr]
  conv_lhs => rw [parseJsonAux.eq_def]
  simp only [List.cons_append, List.append_assoc, List.cons_append]
  have hp := parseStringBody_encode s.data rest
  simp [hp, show isDigitChar '"' = false from by decide]

theorem numOk_toRest {n : Int} {rest : List Char}
    (hnum : numOk (.num n) rest = true) :
    ∀ c, rest.head? = some c → isDigitChar c = false := by
  intro c hc
  cases rest with
  | nil => simp at hc
  | cons d r =>
    simp at hc
    subst hc
    simpa [numOk] using hnum

mutual
theorem parse_stringify_val (j : Json) (fuel : Nat) (rest : List Char)
    (hfuel : jdepth j ≤ fuel) (hnum : numOk j rest = true) :
    parseJsonAux fuel (stringify j ++ rest) = some (j, rest) := by
  have hfuel1 : 1 ≤ jdepth j := by
    cases j <;> simp [jdepth]
  obtain ⟨f, rfl⟩ : ∃ f, fuel = f + 1 := ⟨fuel - 1, by omega⟩
  cases j with
  | null => simpa [stringify] using parse_null_chars f rest
  | bool b =>
    cases b with
    | true => simpa [stringify] using parse_true_chars f rest
    | false => simpa [stringify] using parse_false_chars f rest
  | num n => exact parse_num_chars n f rest (numOk_toRest hnum)
  | str s => exact parse_str_chars s f rest
  | arr xs =>
    cases xs with
    | nil =>
      conv_lhs => rw [parseJsonAux.eq_def]
      simp [stringify, stringifyItems,
        show isDigitChar '[' = false from by decide]
    | cons x tl =>
      have hf2 : jdepthItems (JsonItems.cons x tl) ≤ f := by
        simp only [jdepth] at hfuel
        omega
      have hitems := parse_stringify_items (JsonItems.cons x tl) f rest
        (by simp) hf2
      rcases stringify_head x with ⟨c0, cs0, hx, hne1, _⟩
      have hhead : ∃ tl2, stringifyItems (JsonItems.cons x tl) = c0 :: tl2 := by
        cases tl with
        | nil => exact ⟨cs0, by simp [stringifyItems, hx]⟩
        | cons y tl3 =>
          exact ⟨cs0 ++ ',' :: stringifyItems (JsonItems.cons y tl3),
            by simp [stringifyItems, hx]⟩
      rcases hhead with ⟨tl2, hh⟩
      conv_lhs => rw [parseJsonAux.eq_def]
      simp only [stringify, List.cons_append, List.append_assoc]
      rw [hh]
      simp [hne1, hitems, show isDigitChar '[' = false from by decide,
        ← hh]
      constructor
      · rw [hh]
        simp [hne1]
      · rw [hh]
        simp
  | obj fs =>
    cases fs with
    | nil =>
      conv_lhs => rw [parseJsonAux.eq_def]
      simp [stringify, stringifyFields,
        show isDigitChar lbrace = false from by decide,
        show lbrace ≠ 'n' from by decide, show lbrace ≠ 't' from by decide,
        show lbrace ≠ 'f' from by decide, show lbrace ≠ '-' from by decide,
        show lbrace ≠ '"' from by decide, show lbrace ≠ '[' from by decide]
    | cons k v tl =>
      have hf2 : jdepthFields (JsonFields.cons k v tl) ≤ f := by
        simp only [jdepth] at hfuel
        omega
      have hflds := parse_stringify_fields (JsonFields.cons k v tl) f rest
        (by simp) hf2
      have hh : ∃ tl2, stringifyFields (JsonFields.cons k v tl) = '"' :: tl2 := by
        cases tl with
        | nil =>
          exact ⟨k.data.flatMap escapeChar ++ '"' :: ':' :: stringify v,
            by simp [stringifyFields, encodeStr]⟩
        | cons k2 v2 tl3 =>
          exact ⟨k.data.flatMap escapeChar ++ '"' :: ':' ::
              (stringify v ++ ',' :: stringifyFields (JsonFields.cons k2 v2 tl3)),
            by simp [stringifyFields, encodeStr]⟩
      rcases hh with ⟨tl2, hh⟩
      conv_lhs => rw [parseJsonAux.eq_def]
      simp only [stringify, List.cons_append, List.append_assoc]
      rw [hh]
      simp [hflds, show isDigitChar lbrace = false from by decide,
        show lbrace ≠ 'n' from by decide, show lbrace ≠ 't' from by decide,
        show lbrace ≠ 'f' from by decide, show lbrace ≠ '-' from by decide,
        show lbrace ≠ '"' from by decide, show lbrace ≠ '[' from by decide,
        show ('"' : Char) ≠ rbrace from by decide, ← hh]
      constructor
      · rw [hh]
        simp [show ('"' : Char) ≠ rbrace from by decide]
      · rw [hh]
        simp

theorem parse_stringify_items (xs : JsonItems) (fuel : Nat) (rest : List Char)
    (hne : xs ≠ .nil) (hfuel : jdepthItems xs ≤ fuel) :
    parseItems fuel (stringifyItems xs ++ ']' :: rest) = some (xs, rest) := by
  cases xs with
  | nil => exact absurd rfl hne
  | cons x tl =>
    have h1 : jdepthItems (JsonItems.cons x tl) =
        max (jdepth x) (jdepthItems tl) + 1 := by simp [jdepthItems]
    obtain ⟨f, rfl⟩ : ∃ f, fuel = f + 1 := ⟨fuel - 1, by omega⟩
    have hxf : jdepth x ≤ f := by omega
    cases tl with
    | nil =>
      have hval := parse_stringify_val x f (']' :: rest) hxf
        (numOk_of_nondigit _ _ (by decide))
      simp only [stringifyItems, parseItems]
      simp [hval]
    | cons y tl2 =>
      have htlf : jdepthItems (JsonItems.cons y tl2) ≤ f := by omega
      have hval := parse_stringify_val x f
        (',' :: (stringifyItems (JsonItems.cons y tl2) ++ ']' :: rest)) hxf
        (numOk_of_nondigit _ _ (by decide))
      have hitems := parse_stringify_items (JsonItems.cons y tl2) f rest
        (by simp) htlf
      simp only [stringifyItems, parseItems, List.append_assoc,
        List.cons_append]
      simp [hval, hitems]

theorem parse_stringify_fields (fs : JsonFields) (fuel : Nat)
    (rest : List Char) (hne : fs ≠ .nil) (hfuel : jdepthFields fs ≤ fuel) :
    parseFields fuel (stringifyFields fs ++ rbrace :: rest) =
      some (fs, rest) := by
  cases fs with
  | nil => exact absurd rfl hne
  | cons k v tl =>
    have h1 : jdepthFields (JsonFields.cons k v tl) =
        max (jdepth v) (jdepthFields tl) + 1 := by simp [jdepthFields]
    obtain ⟨f, rfl⟩ : ∃ f, fuel = f + 1 := ⟨fuel - 1, by omega⟩
    have hvf : jdepth v ≤ f := by omega
    cases tl with
    | nil =>
      have hval := parse_stringify_val v f (rbrace :: rest) hvf
        (numOk_of_nondigit _ _ (by decide))
      have hkey := parseStringBody_encode k.data
        (':' :: (stringify v ++ rbrace :: rest))
      simp only [stringifyFields, encodeStr, parseFields,
        List.append_assoc, List.cons_append]
      simp [hkey, hval, show rbrace ≠ ',' from by decide]
    | cons k2 v2 tl2 =>
      have htlf : jdepthFields (JsonFields.cons k2 v2 tl2) ≤ f := by omega
      have hval := parse_stringify_val v f
        (',' :: (stringifyFields (JsonFields.cons k2 v2 tl2) ++
          rbrace :: rest)) hvf
        (numOk_of_nondigit _ _ (by decide))
      have hkey := parseStringBody_encode k.data
        (':' :: (stringify v ++
          ',' :: (stringifyFields (JsonFields.cons k2 v2 tl2) ++
            rbrace :: rest)))
      have hflds := parse_stringify_fields (JsonFields.cons k2 v2 tl2) f rest
        (by simp) htlf
      simp only [stringifyFields, encodeStr, parseFields,
        List.append_assoc, List.cons_append]
      simp [hkey, hval, hflds]
end

mutual
theorem jdepth_le_len (j : Json) : jdepth j ≤ (stringify j).length := by
  cases j with
  | null => simp [jdepth, stringify]
  | bool b => cases b <;> simp [jdepth, stringify]
  | num n =>
    have h := natDigits_ne_nil n.natAbs
    have h2 : 1 ≤ (natDigits n.natAbs).length := List.length_pos.mpr h
    rw [stringify]
    by_cases hn : n < 0
    · rw [if_pos hn]
      simp only [jdepth, List.length_cons]
      omega
    · rw [if_neg hn]
      simp only [jdepth]
      omega
  | str s => simp [jdepth, stringify, encodeStr]
  | arr xs =>
    have h := jdepthItems_le_len xs
    simp [jdepth, stringify]
    omega
  | obj fs =>
    have h := jdepthFields_le_len fs
    simp [jdepth, stringify]
    omega

theorem jdepthItems_le_len (xs : JsonItems) :
    jdepthItems xs ≤ (stringifyItems xs).length + 1 := by
  cases xs with
  | nil => simp [jdepthItems, stringifyItems]
  | cons x tl =>
    have hx := jdepth_le_len x
    cases tl with
    | nil =>
      simp [jdepthItems, stringifyItems]
      omega
    | cons y tl2 =>
      have ht := jdepthItems_le_len (JsonItems.cons y tl2)
      simp [jdepthItems, stringifyItems] at ht ⊢
      omega

theorem jdepthFields_le_len (fs : JsonFields) :
    jdepthFields fs ≤ (stringifyFields fs).length + 1 := by
  cases fs with
  | nil => simp [jdepthFields, stringifyFields]
  | cons k v tl =>
    have hv := jdepth_le_len v
    cases tl with
    | nil =>
      simp [jdepthFields, stringifyFields, encodeStr]
      omega
    | cons k2 v2 tl2 =>
      have ht := jdepthFields_le_len (JsonFields.cons k2 v2 tl2)
      simp [jdepthFields, stringifyFields, encodeStr] at ht ⊢
      omega
end

/-- The round-trip at the heart of the wire format: re-parsing a serialized
value recovers it exactly. -/
theorem jsonParse_stringify (j : Json) : jsonParse (stringify j) = some j := by
  have hd := jdepth_le_len j
  have h := parse_stringify_val j ((stringify j).length + 1) []
    (by omega) (by cases j <;> simp [numOk])
  rw [List.append_nil] at h
  rw [jsonParse, h]

theorem newline_not_in_escapeChar (c : Char) : '\n' ∉ escapeChar c := by
  rw [escapeChar]
  split
  · simp
  · split
    · simp
    · split
      · simp
      · split
        · simp
        · split
          · simp
          · split
            · simp
            · split
              · simp
              · split
                · rename_i h8
                  intro hmem
                  simp only [List.mem_cons] at hmem
                  have hhex : ∀ d : Nat, d < 16 → hexDigit d ≠ '\n' := by decide
                  rcases hmem with h | h | h | h | h | h
                  · exact absurd h (by decide)
                  · exact absurd h (by decide)
                  · exact absurd h (by decide)
                  · exact absurd h (by decide)
                  · exact hhex (c.toNat / 16) (by omega) h.symm
                  · rcases h with h | h
                    · exact hhex (c.toNat % 16) (by omega) h.symm
                    · simp at h
                · rename_i h8
                  intro hmem
                  simp only [List.mem_singleton] at hmem
                  subst hmem
                  exact h8 (by decide)

mutual
theorem newline_not_in_stringify (j : Json) : '\n' ∉ stringify j := by
  cases j with
  | null => decide
  | bool b => cases b <;> decide
  | num n =>
    rw [stringify]
    have hdig : ∀ c ∈ natDigits n.natAbs, c ≠ '\n' := by
      intro c hc
      have := natDigits_digit n.natAbs c hc
      simp [isDigitChar] at this
      refine char_ne_of_toNat_ne ?_
      have : ('\n' : Char).toNat = 10 := by decide
      omega
    by_cases hn : n < 0
    · rw [if_pos hn]
      intro hmem
      rcases List.mem_cons.mp hmem with h | h
      · exact absurd h (by decide)
      · exact hdig _ h rfl
    · rw [if_neg hn]
      intro hmem
      exact hdig _ hmem rfl
  | str s =>
    rw [stringify, encodeStr]
    intro hmem
    rcases List.mem_cons.mp hmem with h | h
    · exact absurd h (by decide)
    · rcases List.mem_append.mp h with h | h
      · rcases List.mem_flatMap.mp h with ⟨c, _, hc⟩
        exact newline_not_in_escapeChar c hc
      · exact absurd (List.mem_singleton.mp h) (by decide)
  | arr xs =>
    rw [stringify]
    intro hmem
    rcases List.mem_cons.mp hmem with h | h
    · exact absurd h (by decide)
    · rcases List.mem_append.mp h with h | h
      · exact newline_not_in_stringifyItems xs h
      · exact absurd (List.mem_singleton.mp h) (by decide)
  | obj fs =>
    rw [stringify]
    intro hmem
    rcases List.mem_cons.mp hmem with h | h
    · exact absurd h (by decide)
    · rcases List.mem_append.mp h with h | h
      · exact newline_not_in_stringifyFields fs h
      · exact absurd (List.mem_singleton.mp h) (by decide)

theorem newline_not_in_stringifyItems (xs : JsonItems) :
    '\n' ∉ stringifyItems xs := by
  cases xs with
  | nil => simp [stringifyItems]
  | cons x tl =>
    cases tl with
    | nil =>
      rw [stringifyItems]
      exact newline_not_in_stringify x
    | cons y tl2 =>
      rw [stringifyItems]
      intro hmem
      rcases List.mem_append.mp hmem with h | h
      · exact newline_not_in_stringify x h
      · rcases List.mem_cons.mp h with h | h
        · exact absurd h (by decide)
        · exact newline_not_in_stringifyItems (JsonItems.cons y tl2) h

theorem newline_not_in_stringifyFields (fs : JsonFields) :
    '\n' ∉ stringifyFields fs := by
  cases fs with
  | nil => simp [stringifyFields]
  | cons k v tl =>
    have hkey : '\n' ∉ encodeStr k := by
      rw [encodeStr]
      intro hmem
      rcases List.mem_cons.mp hmem with h | h
      · exact absurd h (by decide)
      · rcases List.mem_append.mp h with h | h
        · rcases List.mem_flatMap.mp h with ⟨c, _, hc⟩
          exact newline_not_in_escapeChar c hc
        · exact absurd (List.mem_singleton.mp h) (by decide)
    cases tl with
    | nil =>
      intro hmem
      simp only [stringifyFields, List.mem_append, List.mem_cons] at hmem
      rcases hmem with h | h | h
      · exact hkey h
      · exact absurd h (by decide)
      · exact newline_not_in_stringify v h
    | cons k2 v2 tl2 =>
      intro hmem
      simp only [stringifyFields, List.mem_append, List.mem_cons] at hmem
      rcases hmem with (h | h | h) | h | h
      · exact hkey h
      · exact absurd h (by decide)
      · exact newline_not_in_stringify v h
      · exact absurd h (by decide)
      · exact newline_not_in_stringifyFields (JsonFields.cons k2 v2 tl2) h
end

/-! ### Stream Relay (server side, ModelSelector.tsx routes) -/

/-- A server-sent event as yielded by the `/chat` generator. -/
structure SSEEvent where
  data : String
deriving DecidableEq, Repr

/-- JS whitespace as relevant to `trim` and `\s` for this protocol. -/
def isWsChar (c : Char) : Bool :=
  c = ' ' || c = '\n' || c = '\r' || c = '\t'

/-- Model of `String.prototype.trim`. -/
def trimChars (s : List Char) : List Char :=
  ((s.dropWhile isWsChar).reverse.dropWhile isWsChar).reverse

/-- A single optional field of a JS object literal: `undefined` values are
omitted by `JSON.stringify`. -/
def optField (parsed : Json) (k : String) : List (String × Json) :=
  match jget parsed k with
  | some v => [(k, v)]
  | none => []

/-- Payload of a content frame:
`{content: parsed.message.content, id: parsed.message?.id, parentId:
parsed.message?.parentId}` (absent fields omitted). -/
def contentFramePayload (parsed : Json) : Json :=
  .obj (JsonFields.ofList
    ([("content",
        ((jget parsed "message").bind (fun m => jget m "content")).getD .null)]
      ++ ((jget parsed "message").elim [] (fun m => optField m "id"))
      ++ ((jget parsed "message").elim [] (fun m => optField m "parentId"))))

/-- Payload of the completion frame: the fixed field list destructured from
the parsed line, in the code's emission order, `done` defaulting to `true`,
absent fields omitted. -/
def completionFramePayload (parsed : Json) : Json :=
  .obj (JsonFields.ofList
    ([("done", (jget parsed "done").getD (.bool true))]
      ++ optField parsed "model"
      ++ optField parsed "created_at"
      ++ optField parsed "done_reason"
      ++ optField parsed "total_duration"
      ++ optField parsed "load_duration"
      ++ optField parsed "prompt_eval_count"
      ++ optField parsed "prompt_eval_duration"
      ++ optField parsed "eval_count"
      ++ optField parsed "eval_duration"
      ++ optField parsed "message"
      ++ optField parsed "response"))

/-- `parseOllamaLine` (ModelSelector.tsx): JSON-parse the line; on failure
log and yield nothing; if `message.content` is truthy yield a content
frame; if `done` is truthy yield the completion frame then the `[DONE]`
sentinel. -/
def parseOllamaLine (line : List Char) : List SSEEvent :=
  match jsonParse line with
  | none => []
  | some parsed =>
    (if jtruthy ((jget parsed "message").bind (fun m => jget m "content")) then
      [⟨String.mk (stringify (contentFramePayload parsed))⟩]
    else [])
    ++
    (if jtruthy (jget parsed "done") then
      [⟨String.mk (stringify (completionFramePayload parsed))⟩, ⟨"[DONE]"⟩]
    else [])

/-- The buffer line-splitting loop of the `/chat` generator: extract every
complete (newline-terminated) line, keep the remainder buffered. -/
def extractLines : List Char → (List (List Char) × List Char)
  | [] => ([], [])
  | c :: rest =>
    let (ls, rem) := extractLines rest
    if c = '\n' then ([] :: ls, rem)
    else
      match ls with
      | [] => ([], c :: rem)
      | l :: ls2 => ((c :: l) :: ls2, rem)

/-- Per-line handling: trim, skip empties, else `parseOllamaLine`. -/
def processLine (l : List Char) : List SSEEvent :=
  let t := trimChars l
  if t.isEmpty then [] else parseOllamaLine t

/-- One chunk arriving: append to buffer, process complete lines. -/
def relayStep (buffer : List Char) (chunk : List Char) :
    List Char × List SSEEvent :=
  let (lines, rem) := extractLines (buffer ++ chunk)
  (rem, lines.flatMap processLine)

/-- The relay's chunk loop, carrying the line buffer. -/
def relayChunks : List Char → List (List Char) → (List Char × List SSEEvent)
  | buffer, [] => (buffer, [])
  | buffer, chunk :: rest =>
    let (buf2, evs) := relayStep buffer chunk
    let (buf3, evs2) := relayChunks buf2 rest
    (buf3, evs ++ evs2)

/-- How the upstream body terminates: normal end of stream, a client abort
(`AbortError`), or a transport failure with a formatted message. -/
inductive UpstreamEnd where
  | normal
  | abort
  | transport (msg : String)

/-- The full event sequence the `/chat` generator yields for a given
upstream chunk sequence and termination: on normal end the trailing buffer
is flushed through the same per-line handling; an `AbortError` yields
nothing further; any other failure yields exactly one
`data: {"error": <message>}` frame.  The generator then finishes, so
`sendEventStream` ends the HTTP response. -/
def relayEvents (chunks : List (List Char)) (ending : UpstreamEnd) :
    List SSEEvent :=
  let (buf, evs) := relayChunks [] chunks
  match ending with
  | .normal => evs ++ processLine buf
  | .abort => evs
  | .transport msg =>
      evs ++ [⟨String.mk (stringify (.obj (.ofList [("error", .str msg)])))⟩]

/-- `sendEventStream`: each event is written as `data: <payload>\n\n`; the
concatenation is the byte stream the client receives before the response
ends. -/
def wireOf (evs : List SSEEvent) : List Char :=
  evs.flatMap (fun e => ("data: ".data) ++ e.data.data ++ ['\n', '\n'])

/-! ### Stream Consumer (client side, routes/index.tsx) -/

/-- A callback invocation of `consumeEventStream`: a content delta, a
server-reported error, or the completion payload. -/
inductive CbEvent where
  | content (delta : Json)
  | serverError (msg : Json)
  | complete (payload : Json)
deriving DecidableEq, Repr

/-- Full split on `'\n'` (JS `String.prototype.split('\n')`): all segments,
including a trailing empty one. -/
def splitOnNlAll : List Char → List (List Char)
  | [] => [[]]
  | c :: rest =>
    let segs := splitOnNlAll rest
    if c = '\n' then [] :: segs
    else
      match segs with
      | [] => [[c]]
      | s :: ss => (c :: s) :: ss

/-- The `data:` line marker. -/
def dataMark : List Char := ['d', 'a', 't', 'a', ':']

/-- `extractEventData`: keep the lines starting with `data:`, strip the
marker and any following whitespace (`/^data:\s*/`), and join with `\n`. -/
def extractEventData (eventChunk : List Char) : List Char :=
  let dataLines := (splitOnNlAll eventChunk).filter
    (fun l => dataMark.isPrefixOf l)
  List.intercalate ['\n']
    (dataLines.map (fun l => (l.drop 5).dropWhile isWsChar))

/-- The `\n\n` boundary loop of `consumeEventStream`: extract every
complete event block, keep the remainder buffered. -/
def extractEvents : List Char → (List (List Char) × List Char)
  | [] => ([], [])
  | [c] => ([], [c])
  | c :: d :: rest =>
    if c = '\n' ∧ d = '\n' then
      let (es, rem) := extractEvents rest
      ([] :: es, rem)
    else
      let (es, rem) := extractEvents (d :: rest)
      match es with
      | [] => ([], c :: rem)
      | e :: es2 => ((c :: e) :: es2, rem)

/-- One event block of the main loop: the emitted callbacks and whether the
consumer returns (stops reading). -/
def handleEvent (rawEvent : List Char) : List CbEvent × Bool :=
  let data := extractEventData (trimChars rawEvent)
  if data.isEmpty then ([], false)
  else if data = "[DONE]".data then ([], true)
  else
    match jsonParse data with
    | none => ([], false)
    | some payload =>
      if jtruthy (jget payload "error") then
        ([.serverError ((jget payload "error").getD .null)], true)
      else
        let delta := jsNullish (jget payload "content")
          ((jget payload "message").bind (fun m => jget m "content"))
        let contentPart :=
          if jtruthy delta then [CbEvent.content (delta.getD .null)] else []
        if jtruthy (jget payload "done") then
          (contentPart ++ [CbEvent.complete payload], true)
        else (contentPart, false)

/-- Process the extracted events in order, stopping at the first event that
returns. -/
def processEvents : List (List Char) → List CbEvent × Bool
  | [] => ([], false)
  | e :: rest =>
    let (evs, halted) := handleEvent e
    if halted then (evs, true)
    else
      let (evs2, h2) := processEvents rest
      (evs ++ evs2, h2)

/-- The consumer's chunk loop: buffer, extract events, dispatch; stops at
the first halting event and discards the rest of the stream. -/
def consumeChunks : List Char → List (List Char) →
    List CbEvent × Bool × List Char
  | buffer, [] => ([], false, buffer)
  | buffer, chunk :: rest =>
    let (events, rem) := extractEvents (buffer ++ chunk)
    let (cbs, halted) := processEvents events
    if halted then (cbs, true, rem)
    else
      let (cbs2, h2, buf2) := consumeChunks rem rest
      (cbs ++ cbs2, h2, buf2)

/-- The trailing flush after end-of-data: one pass of the same
event-extraction over the unterminated buffer (note that here an error
payload with `done` truthy also triggers the completion callback). -/
def trailingFlush (buffer : List Char) : List CbEvent :=
  let trailingData := extractEventData (trimChars buffer)
  if trailingData.isEmpty then []
  else if trailingData = "[DONE]".data then []
  else
    match jsonParse trailingData with
    | none => []
    | some payload =>
      let errPart :=
        if jtruthy (jget payload "error") then
          [CbEvent.serverError ((jget payload "error").getD .null)]
        else
          let delta := jsNullish (jget payload "content")
            ((jget payload "message").bind (fun m => jget m "content"))
          if jtruthy delta then [CbEvent.content (delta.getD .null)] else []
      let donePart :=
        if jtruthy (jget payload "done") then [CbEvent.complete payload]
        else []
      errPart ++ donePart

/-- `consumeEventStream` (routes/index.tsx): run the chunk loop; if it did
not return early, flush the trailing buffer once. -/
def consumeEventStream (chunks : List (List Char)) : List CbEvent :=
  let (cbs, halted, buf) := consumeChunks [] chunks
  if halted then cbs else cbs ++ trailingFlush buf

/-! ### Session error state (sendPrompt, routes/index.tsx) -/

/-- A JS exception reaching `sendPrompt`'s catch. -/
inductive JsException where
  | abortError
  | other (msg : String)

/-- The session error state after a streaming exchange: `setError(null)` at
start, updated by the server-error callback, then by the catch clause —
which explicitly returns without touching the state on `AbortError`. -/
def sessionError (cbs : List CbEvent) (exn : Option JsException) :
    Option Json :=
  let afterCbs := cbs.foldl
    (fun acc cb =>
      match cb with
      | .serverError m => some m
      | _ => acc) none
  match exn with
  | some .abortError => afterCbs
  | some (.other msg) => some (.str msg)
  | none => afterCbs

/-! ### C4 — the concrete three-line scenario -/

/-- The running content accumulation of `sendPrompt`'s `onContent` callback
(`m.content + delta`). -/
def accumContent (cbs : List CbEvent) : String :=
  cbs.foldl
    (fun acc cb =>
      match cb with
      | .content (.str s) => acc ++ s
      | _ => acc) ""

/-- The tokens-per-second derivation of `sendPrompt`'s completion callback
(`eval_count / (eval_duration / 1e9)` when `eval_duration` is a positive
number and `eval_count` truthy), with exact rationals in place of JS
floats. -/
def tokensPerSecond (metadata : Json) : Option ℚ :=
  match jget metadata "eval_duration" with
  | some (.num n) =>
    if 0 < n then
      if jtruthy (jget metadata "eval_count") then
        match jget metadata "eval_count" with
        | some (.num c) => some ((c : ℚ) / ((n : ℚ) / 1000000000))
        | _ => none
      else none
    else none
  | _ => none

/-- The completion payload the consumer receives in the C4 scenario. -/
def c4completion : Json :=
  .obj (.ofList
    [("done", .bool true), ("model", .str "x"), ("eval_count", .num 5),
      ("eval_duration", .num 1000000000)])

/-- First NDJSON line of the C4 scenario. -/
def c4line1 : String := "\x7b\"message\":\x7b\"content\":\"Hi\"\x7d,\"done\":false\x7d"

/-- Second NDJSON line of the C4 scenario. -/
def c4line2 : String :=
  "\x7b\"message\":\x7b\"content\":\" there\"\x7d,\"done\":false\x7d"

/-- Terminal NDJSON line of the C4 scenario. -/
def c4line3 : String :=
  "\x7b\"done\":true,\"eval_count\":5,\"eval_duration\":1000000000,\"model\":\"x\"\x7d"

/-- The three-line NDJSON input of the C4 scenario. -/
def c4input : List Char := (c4line1 ++ "\n" ++ c4line2 ++ "\n" ++ c4line3).data

/-- C4 counterexample: the relay does not emit the claim's third frame
byte-for-byte — destructuring re-serializes the completion object in the
code's field order (`done`, `model`, `eval_count`, `eval_duration`), not
the upstream order the claim lists. -/
theorem c4_frames_counterexample :
    (relayEvents [c4input] .normal).map (·.data) ≠
      ["\x7b\"content\":\"Hi\"\x7d", "\x7b\"content\":\" there\"\x7d",
        "\x7b\"done\":true,\"eval_count\":5,\"eval_duration\":1000000000,\"model\":\"x\"\x7d",
        "[DONE]"]
    ∧ (relayEvents [c4input] .normal).map (·.data) ≠ [] := by
  constructor <;> decide

/-- C4 (amended): on the three-line input the relay emits exactly the four
frames `data: {"content":"Hi"}`, `data: {"content":" there"}`,
`data: {"done":true,"model":"x","eval_count":5,"eval_duration":1000000000}`
(same field set and values as the claim, serialized in the code's order)
and `data: [DONE]`; feeding that byte output to the consumer yields the
deltas `"Hi"` and `" there"` (accumulating to `"Hi there"`) and one
completion whose `eval_count` is 5, `eval_duration` 1000000000 and `model`
`"x"`; the derived tokens-per-second is exactly 5. -/
theorem c4_scenario :
    (relayEvents [c4input] .normal).map (·.data) =
      ["\x7b\"content\":\"Hi\"\x7d", "\x7b\"content\":\" there\"\x7d",
        "\x7b\"done\":true,\"model\":\"x\",\"eval_count\":5,\"eval_duration\":1000000000\x7d",
        "[DONE]"]
    ∧ (∃ P,
        consumeEventStream [wireOf (relayEvents [c4input] .normal)] =
          [.content (.str "Hi"), .content (.str " there"), .complete P]
        ∧ jget P "eval_count" = some (.num 5)
        ∧ jget P "eval_duration" = some (.num 1000000000)
        ∧ jget P "model" = some (.str "x")
        ∧ tokensPerSecond P = some 5)
    ∧ accumContent
        (consumeEventStream [wireOf (relayEvents [c4input] .normal)]) =
      "Hi there" := by
  refine ⟨by decide, ⟨c4completion, by decide, by decide, by decide,
    by decide, ?_⟩, by decide⟩
  have h1 : jget c4completion "eval_duration" = some (.num 1000000000) := by
    decide
  have h2 : jget c4completion "eval_count" = some (.num 5) := by decide
  simp only [tokensPerSecond, h1, h2, jtruthy]
  norm_num

/-! ### C3 — completion frame contents -/

/-- The fields `parseOllamaLine` destructures and re-emits (beyond
`done`). -/
def keptKeys : List String :=
  ["model", "created_at", "done_reason", "total_duration", "load_duration",
    "prompt_eval_count", "prompt_eval_duration", "eval_count",
    "eval_duration", "message", "response"]

theorem jget_obj_ofList (l : List (String × Json)) (k : String) :
    jget (.obj (.ofList l)) k = (l.find? (fun kv => kv.1 == k)).map (·.2) := by
  induction l with
  | nil => rfl
  | cons kv rest ih =>
    cases kv with
    | mk k0 v0 =>
      by_cases h : k0 = k
      · simp [jget, JsonFields.ofList, JsonFields.findVal, List.find?, h]
      · have hb : (k0 == k) = false := by simp [h]
        simp only [jget, JsonFields.ofList, JsonFields.findVal, List.find?, hb]
        simpa [jget] using ih

theorem find?_optField_ne (parsed : Json) (kf k : String) (h : k ≠ kf) :
    (optField parsed kf).find? (fun kv => kv.1 == k) = none := by
  cases hj : jget parsed kf with
  | none => simp [optField, hj]
  | some v => simp [optField, hj, List.find?, Ne.symm h]

theorem find?_optField_self (parsed : Json) (kf : String) :
    ((optField parsed kf).find? (fun kv => kv.1 == kf)).map (·.2) =
      jget parsed kf := by
  cases hj : jget parsed kf with
  | none => simp [optField, hj]
  | some v => simp [optField, hj, List.find?]

/-- Lookup in a concatenation of optional fields: present iff the key is
in the list and the source object has it, with the source's value. -/
theorem find?_flatMap_optField (parsed : Json) (ks : List String)
    (k : String) :
    (((ks.flatMap (optField parsed)).find?
        (fun kv => kv.1 == k)).map (·.2)) =
      if k ∈ ks then jget parsed k else none := by
  induction ks with
  | nil => simp
  | cons kf ks ih =>
    rw [List.flatMap_cons, List.find?_append]
    by_cases h : k = kf
    · subst h
      cases hj : jget parsed k with
      | none =>
        simp only [optField, hj, List.find?_nil, Option.none_or]
        rw [ih]
        by_cases hmem : k ∈ ks
        · simp [hmem, hj]
        · simp [hmem]
      | some v => simp [optField, hj, List.find?]
    · rw [find?_optField_ne parsed kf k h]
      simp only [Option.none_or]
      rw [ih]
      have hiff : (k ∈ kf :: ks) ↔ (k ∈ ks) := by simp [List.mem_cons, h]
      exact (if_congr hiff rfl rfl).symm

/-- The completion frame's fields are `done` followed by the recognized
keys, in order. -/
theorem completionFramePayload_eq (parsed : Json) :
    completionFramePayload parsed =
      .obj (.ofList ([("done", (jget parsed "done").getD (.bool true))] ++
        keptKeys.flatMap (optField parsed))) := by
  simp [completionFramePayload, keptKeys, List.flatMap]

/-- Lookup in the completion frame: `done` defaults to `true`; every other
recognized field passes through from the parsed line unchanged; everything
else is dropped. -/
theorem jget_completionFramePayload (parsed : Json) (k : String) :
    jget (completionFramePayload parsed) k =
      if k = "done" then some ((jget parsed "done").getD (.bool true))
      else if k ∈ keptKeys then jget parsed k
      else none := by
  rw [completionFramePayload_eq, jget_obj_ofList]
  by_cases h0 : k = "done"
  · subst h0
    simp [List.find?_append, List.find?]
  · have hb : ("done" == k) = false := by
      simp only [beq_eq_false_iff_ne, ne_eq]
      exact Ne.symm h0
    rw [if_neg h0, List.find?_append]
    simp only [List.find?, hb, List.find?_nil, Option.none_or]
    exact find?_flatMap_optField parsed keptKeys k

/-- C3 counterexample: the terminal line `{"done":true,"context":1}` is not
passed through verbatim — the emitted completion frame drops the unknown
`context` field. -/
theorem c3_counterexample :
    parseOllamaLine ("\x7b\"done\":true,\"context\":1\x7d").data =
      [⟨"\x7b\"done\":true\x7d"⟩, ⟨"[DONE]"⟩]
    ∧ ("\x7b\"done\":true\x7d" : String) ≠
        "\x7b\"done\":true,\"context\":1\x7d" := by
  constructor <;> decide

/-- C3 (amended): for every line whose JSON value has a truthy `done`, the
relay's per-line handler ends its output with exactly one completion frame
followed by the `data: [DONE]` sentinel (preceded at most by one content
frame); the completion frame carries exactly the recognized fields —
`done` (defaulting to `true`, otherwise the line's own `done` value) plus
every field of `keptKeys` present in the line, with unchanged values
(durations still in nanoseconds) — and drops all other fields. -/
theorem parseOllamaLine_done (line : List Char) (parsed : Json)
    (hparse : jsonParse line = some parsed)
    (hdone : jtruthy (jget parsed "done") = true) :
    ∃ pre,
      parseOllamaLine line =
        pre ++ [⟨String.mk (stringify (completionFramePayload parsed))⟩,
          ⟨"[DONE]"⟩]
      ∧ (pre = [] ∨ ∃ e, pre = [e])
      ∧ (∀ k, k ≠ "done" →
          jget (completionFramePayload parsed) k =
            if k ∈ keptKeys then jget parsed k else none)
      ∧ jget (completionFramePayload parsed) "done" =
          some ((jget parsed "done").getD (.bool true)) := by
  refine ⟨if jtruthy ((jget parsed "message").bind (fun m => jget m "content"))
      then [⟨String.mk (stringify (contentFramePayload parsed))⟩] else [],
    ?_, ?_, ?_, ?_⟩
  · rw [parseOllamaLine, hparse]
    simp [hdone]
  · by_cases h : jtruthy ((jget parsed "message").bind
      (fun m => jget m "content")) = true
    · exact Or.inr ⟨_, by rw [if_pos h]⟩
    · exact Or.inl (by rw [if_neg h])
  · intro k hk
    rw [jget_completionFramePayload, if_neg hk]
  · rw [jget_completionFramePayload, if_pos rfl]

/-- Witness for C3 (amended) at the line `{"done":true,"eval_count":5}`. -/
theorem parseOllamaLine_done_witness :
    (jsonParse ("\x7b\"done\":true,\"eval_count\":5\x7d").data =
        some (.obj (.ofList [("done", .bool true), ("eval_count", .num 5)]))
      ∧ jtruthy (jget (.obj (.ofList
          [("done", .bool true), ("eval_count", .num 5)])) "done") = true)
    ∧ (∃ pre,
        parseOllamaLine ("\x7b\"done\":true,\"eval_count\":5\x7d").data =
          pre ++ [⟨String.mk (stringify (completionFramePayload
            (.obj (.ofList [("done", .bool true), ("eval_count", .num 5)]))))⟩,
            ⟨"[DONE]"⟩]
        ∧ (pre = [] ∨ ∃ e, pre = [e])
        ∧ (∀ k, k ≠ "done" →
            jget (completionFramePayload (.obj (.ofList
              [("done", .bool true), ("eval_count", .num 5)]))) k =
              if k ∈ keptKeys then
                jget (.obj (.ofList
                  [("done", .bool true), ("eval_count", .num 5)])) k
              else none)
        ∧ jget (completionFramePayload (.obj (.ofList
            [("done", .bool true), ("eval_count", .num 5)]))) "done" =
            some ((jget (.obj (.ofList
              [("done", .bool true), ("eval_count", .num 5)])) "done").getD
                (.bool true))) :=
  ⟨⟨by decide, by decide⟩,
    parseOllamaLine_done _ _ (by decide) (by decide)⟩

/-! ### Wire-level lemmas shared by the streaming claims -/

theorem trimChars_eq_self (s : List Char)
    (hh : ∀ c, s.head? = some c → isWsChar c = false)
    (hl : ∀ c, s.getLast? = some c → isWsChar c = false) :
    trimChars s = s := by
  have h1 : s.dropWhile isWsChar = s := by
    cases s with
    | nil => rfl
    | cons c rest =>
      rw [List.dropWhile_cons, hh c rfl]
      simp
  have h2 : s.reverse.dropWhile isWsChar = s.reverse := by
    cases hr : s.reverse with
    | nil => rfl
    | cons c rest =>
      have : s.getLast? = some c := by
        rw [← List.head?_reverse, hr]
        rfl
      rw [List.dropWhile_cons, hl c this]
      simp
  rw [trimChars, h1, h2, List.reverse_reverse]

theorem extractLines_no_nl (a : List Char) (ha : '\n' ∉ a) :
    extractLines a = ([], a) := by
  induction a with
  | nil => rfl
  | cons c rest ih =>
    have hc : c ≠ '\n' := fun h => ha (h ▸ List.mem_cons_self c rest)
    have hrest : '\n' ∉ rest := fun h => ha (List.mem_cons_of_mem c h)
    rw [extractLines, ih hrest]
    simp [hc]

theorem extractLines_append (a rest : List Char) (ha : '\n' ∉ a) :
    extractLines (a ++ '\n' :: rest) =
      (a :: (extractLines rest).1, (extractLines rest).2) := by
  induction a with
  | nil =>
    simp only [List.nil_append]
    rw [extractLines]
    simp
  | cons c a2 ih =>
    have hc : c ≠ '\n' := fun h => ha (h ▸ List.mem_cons_self c a2)
    have ha2 : '\n' ∉ a2 := fun h => ha (List.mem_cons_of_mem c h)
    rw [List.cons_append, extractLines, ih ha2]
    simp [hc]

theorem extractEvents_no_nl (a : List Char) (ha : '\n' ∉ a) :
    extractEvents a = ([], a) := by
  induction a with
  | nil => rfl
  | cons c rest ih =>
    have hc : c ≠ '\n' := fun h => ha (h ▸ List.mem_cons_self c rest)
    have hrest : '\n' ∉ rest := fun h => ha (List.mem_cons_of_mem c h)
    cases rest with
    | nil => rfl
    | cons d rest2 =>
      rw [extractEvents, ih hrest]
      simp [hc]

theorem extractEvents_append (a rest : List Char) (ha : '\n' ∉ a) :
    extractEvents (a ++ '\n' :: '\n' :: rest) =
      (a :: (extractEvents rest).1, (extractEvents rest).2) := by
  induction a with
  | nil =>
    simp only [List.nil_append]
    rw [extractEvents]
    simp
  | cons c a2 ih =>
    have hc : c ≠ '\n' := fun h => ha (h ▸ List.mem_cons_self c a2)
    have ha2 : '\n' ∉ a2 := fun h => ha (List.mem_cons_of_mem c h)
    cases a2 with
    | nil =>
      simp only [List.nil_append, List.cons_append]
      rw [extractEvents]
      simp only [List.nil_append] at ih
      rw [ih ha2]
      simp [hc]
    | cons c2 a3 =>
      simp only [List.cons_append]
      rw [extractEvents]
      simp only [List.cons_append] at ih
      rw [ih ha2]
      simp [hc]

theorem wireOf_cons (e : SSEEvent) (rest : List SSEEvent) :
    wireOf (e :: rest) =
      ("data: ".data ++ e.data.data) ++ '\n' :: '\n' :: wireOf rest := by
  simp [wireOf]

theorem extractEvents_wire (evs : List SSEEvent)
    (hnl : ∀ e ∈ evs, '\n' ∉ e.data.data) :
    extractEvents (wireOf evs) =
      (evs.map (fun e => "data: ".data ++ e.data.data), []) := by
  induction evs with
  | nil => simp [wireOf, extractEvents]
  | cons e rest ih =>
    have hmem : '\n' ∉ "data: ".data ++ e.data.data := by
      intro h
      rcases List.mem_append.mp h with h | h
      · exact absurd h (by decide)
      · exact hnl e (by simp) h
    rw [wireOf_cons,
      extractEvents_append _ _ hmem,
      ih (fun e2 he2 => hnl e2 (by simp [he2]))]
    simp

theorem extractEventData_frame (p : List Char) (hp : p ≠ [])
    (hnl : '\n' ∉ p)
    (hh : ∀ c, p.head? = some c → isWsChar c = false)
    (hl : ∀ c, p.getLast? = some c → isWsChar c = false) :
    extractEventData (trimChars ("data: ".data ++ p)) = p := by
  have htrim : trimChars ("data: ".data ++ p) = "data: ".data ++ p := by
    refine trimChars_eq_self _ ?_ ?_
    · intro c hc
      have hd : ("data: ".data ++ p).head? = some 'd' := rfl
      rw [hd] at hc
      cases hc
      decide
    · intro c hc
      cases hpl : p.getLast? with
      | none => exact absurd (List.getLast?_eq_none_iff.mp hpl) hp
      | some d =>
        have hlast : ("data: ".data ++ p).getLast? = some d := by
          cases p with
          | nil => exact absurd rfl hp
          | cons p0 ps =>
            rw [show ("data: ".data ++ p0 :: ps).getLast? =
              (p0 :: ps).getLast? from List.getLast?_append_cons _ _ _]
            exact hpl
        rw [hlast] at hc
        cases hc
        exact hl _ hpl
  rw [htrim]
  have hsplit : splitOnNlAll ("data: ".data ++ p) = ["data: ".data ++ p] := by
    have : ∀ s : List Char, '\n' ∉ s → splitOnNlAll s = [s] := by
      intro s hs
      induction s with
      | nil => rfl
      | cons c cs ih =>
        have hc : c ≠ '\n' := fun h => hs (h ▸ List.mem_cons_self c cs)
        have hcs : '\n' ∉ cs := fun h => hs (List.mem_cons_of_mem c h)
        rw [splitOnNlAll, ih hcs]
        simp [hc]
    refine this _ ?_
    intro h
    rcases List.mem_append.mp h with h | h
    · exact absurd h (by decide)
    · exact hnl h
  rw [extractEventData, hsplit]
  have hpre : dataMark.isPrefixOf ("data: ".data ++ p) = true := by
    have hdat : "data: ".data = ['d', 'a', 't', 'a', ':', ' '] := rfl
    rw [hdat]
    simp [dataMark, List.isPrefixOf]
  rw [List.filter_cons]
  simp only [hpre, if_true, List.filter_nil, List.map_cons, List.map_nil]
  have hdrop : ("data: ".data ++ p).drop 5 = ' ' :: p := rfl
  rw [hdrop]
  have hdw : (' ' :: p).dropWhile isWsChar = p := by
    rw [List.dropWhile_cons]
    simp only [show isWsChar ' ' = true from by decide, if_true]
    cases p with
    | nil => exact absurd rfl hp
    | cons p0 ps =>
      rw [List.dropWhile_cons, hh p0 rfl]
      simp
  rw [hdw]
  simp [List.intercalate]

theorem stringify_obj_ne_nil (fs : JsonFields) : stringify (.obj fs) ≠ [] := by
  rw [stringify]
  simp

theorem stringify_obj_head (fs : JsonFields) :
    (stringify (.obj fs)).head? = some lbrace := by
  rw [stringify]
  rfl

theorem stringify_obj_last (fs : JsonFields) :
    (stringify (.obj fs)).getLast? = some rbrace := by
  rw [stringify]
  exact List.getLast?_concat _

theorem stringify_obj_ne_done_lit (fs : JsonFields) :
    stringify (.obj fs) ≠ "[DONE]".data := by
  intro h
  have h2 := congrArg List.head? h
  rw [stringify_obj_head] at h2
  have h3 : ("[DONE]".data).head? = some '[' := rfl
  rw [h3] at h2
  cases h2

/-- `handleEvent` on a well-formed frame carrying a serialized object:
re-parsing recovers the object and the dispatch runs on it. -/
theorem handleEvent_obj_frame (fs : JsonFields) :
    handleEvent ("data: ".data ++ stringify (.obj fs)) =
      (if jtruthy (jget (.obj fs) "error") then
        ([CbEvent.serverError ((jget (.obj fs) "error").getD .null)], true)
      else
        let delta := jsNullish (jget (.obj fs) "content")
          ((jget (.obj fs) "message").bind (fun m => jget m "content"))
        let contentPart :=
          if jtruthy delta then [CbEvent.content (delta.getD .null)] else []
        if jtruthy (jget (.obj fs) "done") then
          (contentPart ++ [CbEvent.complete (.obj fs)], true)
        else (contentPart, false)) := by
  have hdata := extractEventData_frame (stringify (.obj fs))
    (stringify_obj_ne_nil fs) (newline_not_in_stringify _)
    (by
      intro c hc
      rw [stringify_obj_head fs] at hc
      cases hc
      decide)
    (by
      intro c hc
      rw [stringify_obj_last fs] at hc
      cases hc
      decide)
  rw [handleEvent, hdata]
  have hne : (stringify (.obj fs)).isEmpty = false := by
    cases hs : stringify (.obj fs) with
    | nil => exact absurd hs (stringify_obj_ne_nil fs)
    | cons a b => rfl
  rw [hne]
  simp only [Bool.false_eq_true, if_false]
  have hdone : (stringify (.obj fs) = "[DONE]".data) = False := by
    simp [stringify_obj_ne_done_lit fs]
  simp only [hdone, if_false]
  rw [jsonParse_stringify]

/-- A content frame delivers exactly one content callback and does not
stop the consumer. -/
theorem handleEvent_content_frame (t : String) (ht : t ≠ "") :
    handleEvent ("data: ".data ++
        stringify (.obj (.ofList [("content", .str t)]))) =
      ([CbEvent.content (.str t)], false) := by
  rw [handleEvent_obj_frame]
  simp [jget, JsonFields.ofList, JsonFields.findVal, jtruthy, jsNullish, ht]

/-- The `[DONE]` sentinel stops the consumer with no callback. -/
theorem handleEvent_done_frame :
    handleEvent ("data: ".data ++ "[DONE]".data) = ([], true) := by
  decide

theorem processEvents_noHalt_append (evs1 evs2 : List (List Char))
    (h1 : (processEvents evs1).2 = false) :
    processEvents (evs1 ++ evs2) =
      ((processEvents evs1).1 ++ (processEvents evs2).1,
        (processEvents evs2).2) := by
  induction evs1 with
  | nil => simp [processEvents]
  | cons e rest ih =>
    rcases hhe : handleEvent e with ⟨evs, halted⟩
    cases halted with
    | true =>
      exfalso
      rw [processEvents, hhe] at h1
      simp at h1
    | false =>
      have hrest : (processEvents rest).2 = false := by
        rw [processEvents, hhe] at h1
        simpa using h1
      have hgoal1 : processEvents (e :: (rest ++ evs2)) =
          (evs ++ (processEvents (rest ++ evs2)).1,
            (processEvents (rest ++ evs2)).2) := by
        rw [processEvents, hhe]
        cases hpr : processEvents (rest ++ evs2) with
        | mk a b => simp
      have hgoal2 : processEvents (e :: rest) =
          (evs ++ (processEvents rest).1, (processEvents rest).2) := by
        rw [processEvents, hhe]
        cases hpr : processEvents rest with
        | mk a b => simp
      rw [List.cons_append, hgoal1, hgoal2, ih hrest]
      simp [List.append_assoc]

/-- `consumeEventStream` on a single chunk. -/
theorem consumeEventStream_single (input : List Char) :
    consumeEventStream [input] =
      (let (events, rem) := extractEvents input
       let (cbs, halted) := processEvents events
       if halted then cbs else cbs ++ trailingFlush rem) := by
  simp [consumeEventStream, consumeChunks]
  cases hh : (processEvents (extractEvents input).1).2 <;> simp [hh]

/-- `relayEvents` on a single chunk that ends normally. -/
theorem relayEvents_single (input : List Char) :
    relayEvents [input] .normal =
      (extractLines input).1.flatMap processLine ++
        processLine (extractLines input).2 := by
  simp [relayEvents, relayChunks, relayStep]

/-- NDJSON input assembled from lines (no trailing newline). -/
def joinNl : List (List Char) → List Char
  | [] => []
  | [l] => l
  | l :: l2 :: rest => l ++ '\n' :: joinNl (l2 :: rest)

theorem joinNl_cons (l : List Char) (ls : List (List Char)) (h : ls ≠ []) :
    joinNl (l :: ls) = l ++ '\n' :: joinNl ls := by
  cases ls with
  | nil => exact absurd rfl h
  | cons l2 rest => rfl

theorem extractLines_joinNl (lines : List (List Char)) (tline : List Char)
    (h : ∀ l ∈ lines, '\n' ∉ l) (ht : '\n' ∉ tline) :
    extractLines (joinNl (lines ++ [tline])) = (lines, tline) := by
  induction lines with
  | nil =>
    simp only [List.nil_append]
    rw [show joinNl [tline] = tline from rfl]
    exact extractLines_no_nl tline ht
  | cons l rest ih =>
    rw [List.cons_append, joinNl_cons l (rest ++ [tline]) (by simp),
      extractLines_append l _ (h l (by simp)),
      ih (fun l2 hl2 => h l2 (by simp [hl2]))]

/-- A line whose trim fails to parse produces no frames. -/
theorem processLine_malformed (m : List Char)
    (hmal : jsonParse (trimChars m) = none) : processLine m = [] := by
  rw [processLine]
  cases he : (trimChars m).isEmpty with
  | true => simp
  | false =>
    simp only [Bool.false_eq_true, if_false]
    rw [parseOllamaLine, hmal]

/-! ### C8 — malformed lines and payloads are skipped -/

/-- C8: a malformed NDJSON line between two lines does not interrupt the
relay — its own frames are dropped and the neighbours' frames are all
still emitted, in order; likewise a malformed SSE payload between two
content frames is silently swallowed by the consumer, which still
delivers both neighbouring deltas and keeps reading. -/
theorem malformed_line_is_skipped
    (l1 m l3 : List Char)
    (h1 : '\n' ∉ l1) (hm : '\n' ∉ m) (h3 : '\n' ∉ l3)
    (hmal : jsonParse (trimChars m) = none)
    (t1 t2 : String) (ht1 : t1 ≠ "") (ht2 : t2 ≠ "")
    (g : List Char) (hgnl : '\n' ∉ g) (hgne : g ≠ [])
    (hgh : ∀ c, g.head? = some c → isWsChar c = false)
    (hgl : ∀ c, g.getLast? = some c → isWsChar c = false)
    (hgd : g ≠ "[DONE]".data)
    (hgp : jsonParse g = none) :
    relayEvents [joinNl [l1, m, l3]] .normal =
      processLine l1 ++ processLine l3
    ∧ consumeEventStream
        [wireOf
          [⟨String.mk (stringify (.obj (.ofList [("content", .str t1)])))⟩,
            ⟨String.mk g⟩,
            ⟨String.mk (stringify (.obj (.ofList [("content", .str t2)])))⟩]] =
      [CbEvent.content (.str t1), CbEvent.content (.str t2)] := by
  constructor
  · rw [relayEvents_single,
      show joinNl [l1, m, l3] = joinNl ([l1, m] ++ [l3]) from rfl,
      extractLines_joinNl [l1, m] l3
        (by
          intro l hl
          rcases List.mem_cons.mp hl with h | h
          · exact h ▸ h1
          · rcases List.mem_cons.mp h with h | h
            · exact h ▸ hm
            · simp at h)
        h3]
    simp [processLine_malformed m hmal]
  · have hge : handleEvent ("data: ".data ++ g) = ([], false) := by
      have hdata := extractEventData_frame g hgne hgnl hgh hgl
      rw [handleEvent, hdata]
      have hne : g.isEmpty = false := by
        cases g with
        | nil => exact absurd rfl hgne
        | cons a b => rfl
      rw [hne]
      simp only [Bool.false_eq_true, if_false]
      have hdone : (g = "[DONE]".data) = False := by simp [hgd]
      simp only [hdone, if_false]
      rw [hgp]
    have hwire := extractEvents_wire
      [⟨String.mk (stringify (.obj (.ofList [("content", .str t1)])))⟩,
        ⟨String.mk g⟩,
        ⟨String.mk (stringify (.obj (.ofList [("content", .str t2)])))⟩]
      (by
        intro e he
        rcases List.mem_cons.mp he with h | h
        · subst h
          exact newline_not_in_stringify _
        · rcases List.mem_cons.mp h with h | h
          · subst h
            exact hgnl
          · rcases List.mem_cons.mp h with h | h
            · subst h
              exact newline_not_in_stringify _
            · simp at h)
    rw [consumeEventStream_single]
    simp only [hwire, List.map_cons, List.map_nil]
    rw [processEvents, handleEvent_content_frame t1 ht1]
    simp only [Bool.false_eq_true, if_false]
    rw [processEvents, hge]
    simp only [Bool.false_eq_true, if_false]
    rw [processEvents, handleEvent_content_frame t2 ht2]
    simp only [Bool.false_eq_true, if_false]
    rw [processEvents]
    simp [show trailingFlush [] = [] from by decide]

/-- Witness for C8 with a concrete malformed line `oops` between two valid
content lines. -/
theorem malformed_line_is_skipped_witness :
    (jsonParse (trimChars "oops".data) = none
      ∧ jsonParse "oops".data = none)
    ∧ relayEvents
        [joinNl ["\x7b\"message\":\x7b\"content\":\"A\"\x7d,\"done\":false\x7d".data,
          "oops".data,
          "\x7b\"message\":\x7b\"content\":\"B\"\x7d,\"done\":false\x7d".data]]
        .normal =
      processLine "\x7b\"message\":\x7b\"content\":\"A\"\x7d,\"done\":false\x7d".data ++
        processLine "\x7b\"message\":\x7b\"content\":\"B\"\x7d,\"done\":false\x7d".data :=
  ⟨⟨by decide, by decide⟩,
    (malformed_line_is_skipped
      "\x7b\"message\":\x7b\"content\":\"A\"\x7d,\"done\":false\x7d".data
      "oops".data
      "\x7b\"message\":\x7b\"content\":\"B\"\x7d,\"done\":false\x7d".data
      (by decide) (by decide) (by decide) (by decide)
      "A" "B" (by decide) (by decide)
      "oops".data (by decide) (by decide) (by decide) (by decide)
      (by decide) (by decide)).1⟩

/-! ### C7 — transport failure vs client cancel -/

theorem jget_contentFramePayload_error (parsed : Json) :
    jget (contentFramePayload parsed) "error" = none := by
  rw [contentFramePayload, jget_obj_ofList]
  cases hm : jget parsed "message" with
  | none => simp [List.find?_append, List.find?]
  | some msg =>
    simp [List.find?_append, List.find?,
      find?_optField_ne msg "id" "error" (by decide),
      find?_optField_ne msg "parentId" "error" (by decide)]

theorem jget_completionFramePayload_error (parsed : Json) :
    jget (completionFramePayload parsed) "error" = none := by
  rw [jget_completionFramePayload]
  simp [keptKeys]

theorem mem_parseOllamaLine {e : SSEEvent} {line : List Char}
    (he : e ∈ parseOllamaLine line) :
    ∃ parsed, jsonParse line = some parsed ∧
      (e = ⟨String.mk (stringify (contentFramePayload parsed))⟩
        ∨ e = ⟨String.mk (stringify (completionFramePayload parsed))⟩
        ∨ e = ⟨"[DONE]"⟩) := by
  rw [parseOllamaLine] at he
  cases hp : jsonParse line with
  | none => rw [hp] at he; simp at he
  | some parsed =>
    rw [hp] at he
    refine ⟨parsed, rfl, ?_⟩
    rcases List.mem_append.mp he with h | h
    · by_cases hc : jtruthy ((jget parsed "message").bind
        (fun m => jget m "content")) = true
      · rw [if_pos hc] at h
        simp at h
        exact Or.inl (by rw [h])
      · rw [if_neg hc] at h
        simp at h
    · by_cases hd : jtruthy (jget parsed "done") = true
      · rw [if_pos hd] at h
        rcases List.mem_cons.mp h with h | h
        · exact Or.inr (Or.inl (by rw [h]))
        · rcases List.mem_cons.mp h with h | h
          · exact Or.inr (Or.inr (by rw [h]))
          · simp at h
      · rw [if_neg hd] at h
        simp at h

theorem mem_relayChunks {e : SSEEvent} :
    ∀ (chunks : List (List Char)) (buf : List Char),
      e ∈ (relayChunks buf chunks).2 → ∃ l, e ∈ parseOllamaLine l := by
  intro chunks
  induction chunks with
  | nil => intro buf h; simp [relayChunks] at h
  | cons c rest ih =>
    intro buf h
    rw [relayChunks] at h
    simp only [relayStep] at h
    rcases List.mem_append.mp h with h | h
    · rcases List.mem_flatMap.mp h with ⟨l, _, hl⟩
      rw [processLine] at hl
      by_cases ht : (trimChars l).isEmpty = true
      · rw [if_pos ht] at hl
        simp at hl
      · rw [if_neg ht] at hl
        exact ⟨trimChars l, hl⟩
    · exact ih _ h

/-- Every frame the relay derives from upstream lines: its payload has no
newline, and if it parses as JSON it has no `error` field. -/
theorem relay_frame_props {e : SSEEvent} {l : List Char}
    (he : e ∈ parseOllamaLine l) :
    '\n' ∉ e.data.data ∧
      (∀ p, jsonParse e.data.data = some p → jget p "error" = none) := by
  rcases mem_parseOllamaLine he with ⟨parsed, _, hshape⟩
  rcases hshape with h | h | h
  · subst h
    refine ⟨newline_not_in_stringify _, ?_⟩
    intro p hp
    rw [show (⟨String.mk (stringify (contentFramePayload parsed))⟩ :
      SSEEvent).data.data = stringify (contentFramePayload parsed) from rfl,
      jsonParse_stringify] at hp
    cases hp
    exact jget_contentFramePayload_error parsed
  · subst h
    refine ⟨newline_not_in_stringify _, ?_⟩
    intro p hp
    rw [show (⟨String.mk (stringify (completionFramePayload parsed))⟩ :
      SSEEvent).data.data = stringify (completionFramePayload parsed) from rfl,
      jsonParse_stringify] at hp
    cases hp
    exact jget_completionFramePayload_error parsed
  · subst h
    refine ⟨by decide, ?_⟩
    intro p hp
    rw [show (⟨"[DONE]"⟩ : SSEEvent).data.data = "[DONE]".data from rfl] at hp
    rw [show jsonParse "[DONE]".data = none from by decide] at hp
    cases hp

theorem handleEvent_no_serverError (ev : List Char)
    (h : ∀ payload, jsonParse (extractEventData (trimChars ev)) = some payload →
      jtruthy (jget payload "error") = false) :
    ∀ cb ∈ (handleEvent ev).1, ∀ m, cb ≠ CbEvent.serverError m := by
  intro cb hcb m
  rw [handleEvent] at hcb
  by_cases h1 : (extractEventData (trimChars ev)).isEmpty = true
  · rw [if_pos h1] at hcb
    simp at hcb
  · rw [if_neg h1] at hcb
    by_cases h2 : extractEventData (trimChars ev) = "[DONE]".data
    · rw [if_pos h2] at hcb
      simp at hcb
    · rw [if_neg h2] at hcb
      cases hp : jsonParse (extractEventData (trimChars ev)) with
      | none => rw [hp] at hcb; simp at hcb
      | some payload =>
        rw [hp] at hcb
        simp only [] at hcb
        rw [h payload hp] at hcb
        simp only [Bool.false_eq_true, if_false] at hcb
        by_cases h3 : jtruthy (jsNullish (jget payload "content")
          ((jget payload "message").bind (fun m => jget m "content"))) = true
        · rw [if_pos h3] at hcb
          by_cases h4 : jtruthy (jget payload "done") = true
          · rw [if_pos h4] at hcb
            simp at hcb
            rcases hcb with h | h | h <;> simp [h]
          · rw [if_neg h4] at hcb
            simp at hcb
            simp [hcb]
        · rw [if_neg h3] at hcb
          by_cases h4 : jtruthy (jget payload "done") = true
          · rw [if_pos h4] at hcb
            simp at hcb
            simp [hcb]
          · rw [if_neg h4] at hcb
            simp at hcb

theorem processEvents_no_serverError (events : List (List Char))
    (h : ∀ ev ∈ events, ∀ cb ∈ (handleEvent ev).1, ∀ m,
      cb ≠ CbEvent.serverError m) :
    ∀ cb ∈ (processEvents events).1, ∀ m, cb ≠ CbEvent.serverError m := by
  induction events with
  | nil => intro cb hcb; simp [processEvents] at hcb
  | cons ev rest ih =>
    intro cb hcb m
    rw [processEvents] at hcb
    rcases hhe : handleEvent ev with ⟨evs, halted⟩
    rw [hhe] at hcb
    cases halted with
    | true =>
      simp only [if_true] at hcb
      exact h ev (by simp) cb (by rw [hhe]; exact hcb) m
    | false =>
      simp only [Bool.false_eq_true, if_false] at hcb
      rcases hpr : processEvents rest with ⟨cbs2, h2⟩
      rw [hpr] at hcb
      simp only [] at hcb
      rcases List.mem_append.mp hcb with hmem | hmem
      · exact h ev (by simp) cb (by rw [hhe]; exact hmem) m
      · have := ih (fun ev2 hev2 => h ev2 (by simp [hev2])) cb
          (by rw [hpr]; exact hmem) m
        exact this

theorem sessionError_no_serverError (cbs : List CbEvent)
    (h : ∀ cb ∈ cbs, ∀ m, cb ≠ CbEvent.serverError m) :
    sessionError cbs (some .abortError) = none := by
  rw [sessionError]
  have hfold : ∀ l : List CbEvent, (∀ cb ∈ l, ∀ m, cb ≠ CbEvent.serverError m) →
      l.foldl (fun acc cb =>
        match cb with
        | CbEvent.serverError m => some m
        | _ => acc) none = none := by
    intro l
    induction l with
    | nil => intro _; rfl
    | cons cb rest ih =>
      intro hl
      have hcb : ∀ m, cb ≠ CbEvent.serverError m := hl cb (by simp)
      have hstep : (match cb with
          | CbEvent.serverError m => some m
          | _ => (none : Option Json)) = none := by
        cases cb with
        | serverError m => exact absurd rfl (hcb m)
        | content d => rfl
        | complete p => rfl
      rw [List.foldl_cons, hstep]
      exact ih (fun cb2 hcb2 => hl cb2 (by simp [hcb2]))
  simp only [hfold cbs h]

/-- C7: a transport failure that is not a client cancel appends exactly one
`data: {"error": <message>}` frame to the normally derived frames and the
stream then ends; none of the normally derived frames is an error frame.
On a client cancel (`AbortError`) no error frame is emitted, and the
session error state stays empty: the consumer fires no error callback and
the catch clause returns without touching the state. -/
theorem relay_error_vs_cancel (chunks : List (List Char)) (msg : String) :
    relayEvents chunks (.transport msg) =
      relayEvents chunks .abort ++
        [⟨String.mk (stringify (.obj (.ofList [("error", .str msg)])))⟩]
    ∧ (∀ e ∈ relayEvents chunks .abort, ∀ p,
        jsonParse e.data.data = some p → jget p "error" = none)
    ∧ sessionError
        (consumeEventStream [wireOf (relayEvents chunks .abort)])
        (some .abortError) = none := by
  have habort : relayEvents chunks .abort = (relayChunks [] chunks).2 := by
    rw [relayEvents]
  have hframe : ∀ e ∈ relayEvents chunks .abort,
      '\n' ∉ e.data.data ∧
        (∀ p, jsonParse e.data.data = some p → jget p "error" = none) := by
    intro e he
    rw [habort] at he
    rcases mem_relayChunks chunks [] he with ⟨l, hl⟩
    exact relay_frame_props hl
  refine ⟨?_, fun e he => (hframe e he).2, ?_⟩
  · rw [relayEvents, habort]
  · have hwire := extractEvents_wire (relayEvents chunks .abort)
      (fun e he => (hframe e he).1)
    rw [consumeEventStream_single]
    simp only [hwire]
    have hnose : ∀ cb ∈ (processEvents ((relayEvents chunks .abort).map
        (fun e => "data: ".data ++ e.data.data))).1, ∀ m,
        cb ≠ CbEvent.serverError m := by
      refine processEvents_no_serverError _ ?_
      intro ev hev
      rcases List.mem_map.mp hev with ⟨e, he, hevq⟩
      subst hevq
      refine handleEvent_no_serverError _ ?_
      intro payload hp
      rcases mem_relayChunks chunks []
        (by rw [← habort]; exact he) with ⟨l, hl⟩
      rcases mem_parseOllamaLine hl with ⟨parsed, _, hshape⟩
      rcases hshape with h | h | h
      · subst h
        rw [show (⟨String.mk (stringify (contentFramePayload parsed))⟩ :
          SSEEvent).data.data = stringify (contentFramePayload parsed)
          from rfl] at hp
        have hdata : extractEventData (trimChars
            ("data: ".data ++ stringify (contentFramePayload parsed))) =
            stringify (contentFramePayload parsed) :=
          extractEventData_frame _
            (by rw [contentFramePayload]; exact stringify_obj_ne_nil _)
            (newline_not_in_stringify _)
            (by
              intro c hc
              rw [contentFramePayload, stringify_obj_head] at hc
              cases hc
              decide)
            (by
              intro c hc
              rw [contentFramePayload, stringify_obj_last] at hc
              cases hc
              decide)
        rw [hdata, jsonParse_stringify] at hp
        cases hp
        rw [jget_contentFramePayload_error]
        rfl
      · subst h
        rw [show (⟨String.mk (stringify (completionFramePayload parsed))⟩ :
          SSEEvent).data.data = stringify (completionFramePayload parsed)
          from rfl] at hp
        have hdata : extractEventData (trimChars
            ("data: ".data ++ stringify (completionFramePayload parsed))) =
            stringify (completionFramePayload parsed) :=
          extractEventData_frame _
            (by rw [completionFramePayload]; exact stringify_obj_ne_nil _)
            (newline_not_in_stringify _)
            (by
              intro c hc
              rw [completionFramePayload, stringify_obj_head] at hc
              cases hc
              decide)
            (by
              intro c hc
              rw [completionFramePayload, stringify_obj_last] at hc
              cases hc
              decide)
        rw [hdata, jsonParse_stringify] at hp
        cases hp
        rw [jget_completionFramePayload_error]
        rfl
      · subst h
        rw [show (⟨"[DONE]"⟩ : SSEEvent).data.data = "[DONE]".data
          from rfl] at hp
        rw [show extractEventData (trimChars
          ("data: ".data ++ "[DONE]".data)) = "[DONE]".data from by decide,
          show jsonParse "[DONE]".data = none from by decide] at hp
        cases hp
    refine sessionError_no_serverError _ ?_
    cases hh : (processEvents ((relayEvents chunks .abort).map
        (fun e => "data: ".data ++ e.data.data))).2 with
    | true =>
      simp only [hh, if_true]
      exact hnose
    | false =>
      simp only [hh, Bool.false_eq_true, if_false]
      intro cb hcb m
      rcases List.mem_append.mp hcb with hmem | hmem
      · exact hnose cb hmem m
      · rw [show trailingFlush [] = [] from by decide] at hmem
        simp at hmem

/-- Witness for C7 at a concrete one-line upstream and message `boom`. -/
theorem relay_error_vs_cancel_witness :
    relayEvents
        [("\x7b\"message\":\x7b\"content\":\"A\"\x7d,\"done\":false\x7d\n").data]
        (.transport "boom") =
      relayEvents
        [("\x7b\"message\":\x7b\"content\":\"A\"\x7d,\"done\":false\x7d\n").data]
        .abort ++
        [⟨String.mk (stringify (.obj (.ofList [("error", .str "boom")])))⟩] :=
  (relay_error_vs_cancel
    [("\x7b\"message\":\x7b\"content\":\"A\"\x7d,\"done\":false\x7d\n").data]
    "boom").1

/-! ### C2 — relay/consumer round trip under the upstream contract -/

/-- A non-terminal upstream line per §4.3:
`{"message":{"content":<token>},"done":false}`. -/
def contentLineObj (t : String) : Json :=
  .obj (.ofList
    [("message", .obj (.ofList [("content", .str t)])), ("done", .bool false)])

/-- The terminal upstream line per §4.3, with all metadata fields. -/
def terminalLineObj (dr : String) (td ld pec ped ec ed : Int)
    (model : String) : Json :=
  .obj (.ofList
    [("done", .bool true), ("done_reason", .str dr),
      ("total_duration", .num td), ("load_duration", .num ld),
      ("prompt_eval_count", .num pec), ("prompt_eval_duration", .num ped),
      ("eval_count", .num ec), ("eval_duration", .num ed),
      ("model", .str model)])

/-- The content frame the relay emits for token `t`. -/
def contentFrame (t : String) : SSEEvent :=
  ⟨String.mk (stringify (.obj (.ofList [("content", .str t)])))⟩

/-- The completion object the relay emits for the contract terminal line:
same values, re-serialized in the code's field order. -/
def terminalEmit (dr : String) (td ld pec ped ec ed : Int)
    (model : String) : Json :=
  .obj (.ofList
    [("done", .bool true), ("model", .str model), ("done_reason", .str dr),
      ("total_duration", .num td), ("load_duration", .num ld),
      ("prompt_eval_count", .num pec), ("prompt_eval_duration", .num ped),
      ("eval_count", .num ec), ("eval_duration", .num ed)])

theorem contentFramePayload_contentLine (t : String) :
    contentFramePayload (contentLineObj t) =
      .obj (.ofList [("content", .str t)]) := by
  simp [contentFramePayload, contentLineObj, optField, jget,
    JsonFields.ofList, JsonFields.findVal]

theorem parseOllamaLine_contentLine (line : List Char) (t : String)
    (hp : jsonParse line = some (contentLineObj t)) :
    parseOllamaLine line = if t = "" then [] else [contentFrame t] := by
  rw [parseOllamaLine, hp]
  simp only []
  have hmsg : jget (contentLineObj t) "message" =
      some (.obj (.ofList [("content", .str t)])) := by
    simp [contentLineObj, jget, JsonFields.ofList, JsonFields.findVal]
  have hdone : jget (contentLineObj t) "done" = some (.bool false) := by
    simp [contentLineObj, jget, JsonFields.ofList, JsonFields.findVal]
  have hcont : (jget (contentLineObj t) "message").bind
      (fun m => jget m "content") = some (.str t) := by
    rw [hmsg]
    simp [jget, JsonFields.ofList, JsonFields.findVal]
  rw [hcont, hdone]
  by_cases ht : t = ""
  · subst ht
    simp [jtruthy]
  · have : jtruthy (some (.str t)) = true := by simp [jtruthy, ht]
    rw [this]
    simp [jtruthy, ht, contentFrame, contentFramePayload_contentLine]

theorem completionFramePayload_terminal (dr : String)
    (td ld pec ped ec ed : Int) (model : String) :
    completionFramePayload (terminalLineObj dr td ld pec ped ec ed model) =
      terminalEmit dr td ld pec ped ec ed model := by
  simp [completionFramePayload, terminalLineObj, terminalEmit, optField,
    jget, JsonFields.ofList, JsonFields.findVal]

theorem parseOllamaLine_terminal (line : List Char) (dr : String)
    (td ld pec ped ec ed : Int) (model : String)
    (hp : jsonParse line =
      some (terminalLineObj dr td ld pec ped ec ed model)) :
    parseOllamaLine line =
      [⟨String.mk (stringify (terminalEmit dr td ld pec ped ec ed model))⟩,
        ⟨"[DONE]"⟩] := by
  rw [parseOllamaLine, hp]
  simp only []
  have hmsg : jget (terminalLineObj dr td ld pec ped ec ed model)
      "message" = none := by
    simp [terminalLineObj, jget, JsonFields.ofList, JsonFields.findVal]
  have hdone : jget (terminalLineObj dr td ld pec ped ec ed model)
      "done" = some (.bool true) := by
    simp [terminalLineObj, jget, JsonFields.ofList, JsonFields.findVal]
  rw [hmsg, hdone]
  simp [jtruthy, completionFramePayload_terminal]

theorem jsonParse_nil : jsonParse ([] : List Char) = none := rfl

theorem processLine_parse (l : List Char) (j : Json)
    (hp : jsonParse (trimChars l) = some j) :
    processLine l = parseOllamaLine (trimChars l) := by
  rw [processLine]
  cases he : (trimChars l).isEmpty with
  | false => simp
  | true =>
    exfalso
    have : trimChars l = [] := by
      cases ht : trimChars l with
      | nil => rfl
      | cons a b => rw [ht] at he; simp at he
    rw [this, jsonParse_nil] at hp
    cases hp

theorem forall2_mem_left {α β : Type} {r : α → β → Prop}
    {xs : List α} {ys : List β} (hall : List.Forall₂ r xs ys) :
    ∀ x ∈ xs, ∃ y, r x y := by
  induction hall with
  | nil => intro x hx; cases hx
  | cons hR _ ih =>
    intro x hx
    rcases List.mem_cons.mp hx with hx | hx
    · exact ⟨_, hx ▸ hR⟩
    · exact ih x hx

theorem flatMap_processLine_contract (lines : List (List Char))
    (tokens : List String)
    (hF : List.Forall₂ (fun l t =>
      jsonParse (trimChars l) = some (contentLineObj t)) lines tokens) :
    lines.flatMap processLine =
      (tokens.filter (fun t => t != "")).map contentFrame := by
  induction hF with
  | nil => rfl
  | cons hR hF ih =>
    rw [List.flatMap_cons, processLine_parse _ _ hR,
      parseOllamaLine_contentLine _ _ hR, ih]
    rename_i t _ _
    by_cases ht : t = ""
    · subst ht
      simp
    · simp [List.filter_cons, ht]

theorem processEvents_content_part (ts : List String)
    (h : ∀ t ∈ ts, t ≠ "") (rest : List (List Char)) :
    processEvents ((ts.map (fun t => "data: ".data ++
        stringify (.obj (.ofList [("content", .str t)])))) ++ rest) =
      ((ts.map (fun t => CbEvent.content (.str t))) ++
        (processEvents rest).1, (processEvents rest).2) := by
  induction ts with
  | nil => simp
  | cons t ts ih =>
    rw [List.map_cons, List.cons_append, processEvents,
      handleEvent_content_frame t (h t (by simp)),
      ih (fun u hu => h u (by simp [hu]))]
    simp

theorem handleEvent_terminal (dr : String) (td ld pec ped ec ed : Int)
    (model : String) :
    handleEvent ("data: ".data ++
        stringify (terminalEmit dr td ld pec ped ec ed model)) =
      ([CbEvent.complete (terminalEmit dr td ld pec ped ec ed model)],
        true) := by
  rw [show stringify (terminalEmit dr td ld pec ped ec ed model) =
      stringify (.obj (.ofList
        [("done", .bool true), ("model", .str model),
          ("done_reason", .str dr), ("total_duration", .num td),
          ("load_duration", .num ld), ("prompt_eval_count", .num pec),
          ("prompt_eval_duration", .num ped), ("eval_count", .num ec),
          ("eval_duration", .num ed)])) from rfl,
    handleEvent_obj_frame]
  simp [terminalEmit, jget, JsonFields.ofList, JsonFields.findVal,
    jtruthy, jsNullish]

/-- C2 counterexample: for the NDJSON input consisting of the single
content line `\x7b"message":\x7b"content":"Hi"\x7d,"done":false\x7d` and
no terminal line, the relay's exact SSE output fed into the consumer
yields the matching content delta but no completion callback at all, so
the round-trip claim fails when quantified over every NDJSON input
rather than over contract-conforming ones. -/
theorem c2_no_completion_counterexample :
    consumeEventStream
        [wireOf (relayEvents
          ["\x7b\"message\":\x7b\"content\":\"Hi\"\x7d,\"done\":false\x7d".data]
          .normal)] =
      [CbEvent.content (.str "Hi")] := by
  decide

theorem consume_single_halt (input : List Char) (cbs : List CbEvent)
    (h : processEvents (extractEvents input).1 = (cbs, true)) :
    consumeEventStream [input] = cbs := by
  rw [consumeEventStream_single]
  rcases hex : extractEvents input with ⟨events, rem⟩
  rw [hex] at h
  simp only []
  rw [h]
  simp

/-- C2: under the upstream NDJSON contract (each non-terminal line parses,
after trimming, to `{"message":{"content":t},"done":false}` and the final
line to the terminal object with the §4.3 metadata fields), the relay
derives one content frame per non-empty token followed by the completion
frame and the `[DONE]` sentinel; feeding that exact SSE byte output into
the consumer yields the matching sequence of content-delta callbacks —
one per content frame, carrying the same token — plus exactly one
completion callback whose payload keeps every metadata field's value
unmodified. -/
theorem relay_consumer_roundtrip
    (lines : List (List Char)) (tokens : List String)
    (hF : List.Forall₂ (fun l t => '\n' ∉ l ∧
      jsonParse (trimChars l) = some (contentLineObj t)) lines tokens)
    (tline : List Char) (htnl : '\n' ∉ tline)
    (dr model : String) (td ld pec ped ec ed : Int)
    (htp : jsonParse (trimChars tline) =
      some (terminalLineObj dr td ld pec ped ec ed model)) :
    relayEvents [joinNl (lines ++ [tline])] .normal =
      (tokens.filter (fun t => t != "")).map contentFrame ++
        [⟨String.mk (stringify (terminalEmit dr td ld pec ped ec ed model))⟩,
          ⟨"[DONE]"⟩] ∧
    consumeEventStream
        [wireOf (relayEvents [joinNl (lines ++ [tline])] .normal)] =
      (tokens.filter (fun t => t != "")).map
          (fun t => CbEvent.content (.str t)) ++
        [CbEvent.complete (terminalEmit dr td ld pec ped ec ed model)] ∧
    jget (terminalEmit dr td ld pec ped ec ed model) "done_reason" =
      some (.str dr) ∧
    jget (terminalEmit dr td ld pec ped ec ed model) "total_duration" =
      some (.num td) ∧
    jget (terminalEmit dr td ld pec ped ec ed model) "load_duration" =
      some (.num ld) ∧
    jget (terminalEmit dr td ld pec ped ec ed model) "prompt_eval_count" =
      some (.num pec) ∧
    jget (terminalEmit dr td ld pec ped ec ed model) "prompt_eval_duration" =
      some (.num ped) ∧
    jget (terminalEmit dr td ld pec ped ec ed model) "eval_count" =
      some (.num ec) ∧
    jget (terminalEmit dr td ld pec ped ec ed model) "eval_duration" =
      some (.num ed) ∧
    jget (terminalEmit dr td ld pec ped ec ed model) "model" =
      some (.str model) := by
  have hnl : ∀ l ∈ lines, '\n' ∉ l := by
    intro l hl
    rcases forall2_mem_left hF l hl with ⟨t, ht, _⟩
    exact ht
  have hrelay : relayEvents [joinNl (lines ++ [tline])] .normal =
      (tokens.filter (fun t => t != "")).map contentFrame ++
        [⟨String.mk (stringify (terminalEmit dr td ld pec ped ec ed model))⟩,
          ⟨"[DONE]"⟩] := by
    rw [relayEvents_single, extractLines_joinNl lines tline hnl htnl]
    rw [flatMap_processLine_contract lines tokens (hF.imp (fun _ _ h => h.2)),
      processLine_parse _ _ htp,
      parseOllamaLine_terminal _ _ _ _ _ _ _ _ _ htp]
  refine ⟨hrelay, ?_, ?_, ?_, ?_, ?_, ?_, ?_, ?_, ?_⟩
  · rw [hrelay]
    have hframes : ∀ e ∈ (tokens.filter (fun t => t != "")).map
        contentFrame ++
        [(⟨String.mk (stringify
            (terminalEmit dr td ld pec ped ec ed model))⟩ : SSEEvent),
          ⟨"[DONE]"⟩], '\n' ∉ e.data.data := by
      intro e he
      rcases List.mem_append.mp he with he | he
      · rcases List.mem_map.mp he with ⟨t, _, rfl⟩
        exact newline_not_in_stringify _
      · rcases List.mem_cons.mp he with rfl | he
        · exact newline_not_in_stringify _
        · rcases List.mem_cons.mp he with rfl | he
          · decide
          · cases he
    have hne : ∀ t ∈ tokens.filter (fun t => t != ""), t ≠ "" := by
      intro t ht
      have := (List.mem_filter.mp ht).2
      simpa using this
    have hrest : processEvents
        ["data: ".data ++
            stringify (terminalEmit dr td ld pec ped ec ed model),
          "data: ".data ++ "[DONE]".data] =
        ([CbEvent.complete (terminalEmit dr td ld pec ped ec ed model)],
          true) := by
      rw [processEvents, handleEvent_terminal]
      simp
    refine consume_single_halt _ _ ?_
    rw [extractEvents_wire _ hframes]
    simp only []
    rw [List.map_append, List.map_map]
    rw [show ((fun e : SSEEvent => "data: ".data ++ e.data.data) ∘
        contentFrame) = (fun t => "data: ".data ++
          stringify (Json.obj
            (JsonFields.ofList [("content", Json.str t)]))) from rfl]
    rw [show List.map (fun e : SSEEvent => "data: ".data ++ e.data.data)
        [(⟨String.mk (stringify
            (terminalEmit dr td ld pec ped ec ed model))⟩ : SSEEvent),
          ⟨"[DONE]"⟩] =
        ["data: ".data ++
            stringify (terminalEmit dr td ld pec ped ec ed model),
          "data: ".data ++ "[DONE]".data] from rfl]
    rw [processEvents_content_part _ hne, hrest]
  · simp [terminalEmit, jget, JsonFields.ofList, JsonFields.findVal]
  · simp [terminalEmit, jget, JsonFields.ofList, JsonFields.findVal]
  · simp [terminalEmit, jget, JsonFields.ofList, JsonFields.findVal]
  · simp [terminalEmit, jget, JsonFields.ofList, JsonFields.findVal]
  · simp [terminalEmit, jget, JsonFields.ofList, JsonFields.findVal]
  · simp [terminalEmit, jget, JsonFields.ofList, JsonFields.findVal]
  · simp [terminalEmit, jget, JsonFields.ofList, JsonFields.findVal]
  · simp [terminalEmit, jget, JsonFields.ofList, JsonFields.findVal]

/-- A concrete content line satisfying the upstream contract. -/
def c2wline : List Char :=
  "\x7b\"message\":\x7b\"content\":\"Hi\"\x7d,\"done\":false\x7d".data

/-- A concrete terminal line with all §4.3 metadata fields. -/
def c2wtline : List Char :=
  String.data ("\x7b\"done\":true,\"done_reason\":\"stop\"," ++
    "\"total_duration\":9,\"load_duration\":8,\"prompt_eval_count\":7," ++
    "\"prompt_eval_duration\":6,\"eval_count\":5,\"eval_duration\":4," ++
    "\"model\":\"x\"\x7d")

theorem relay_consumer_roundtrip_witness :
    consumeEventStream
        [wireOf (relayEvents [joinNl ([c2wline] ++ [c2wtline])] .normal)] =
      [CbEvent.content (.str "Hi"),
        CbEvent.complete (terminalEmit "stop" 9 8 7 6 5 4 "x")] := by
  have h := relay_consumer_roundtrip [c2wline] ["Hi"]
    (List.Forall₂.cons ⟨by decide, by decide⟩ List.Forall₂.nil)
    c2wtline (by decide) "stop" "x" 9 8 7 6 5 4 (by decide)
  simpa using h.2.1

end SSEChat
